import Mathlib

/-!
Mod Library: the note encoder, the melody query compiler and the library index.

A shallow embedding of `database.cpp` and `modlibrary.cpp`.

* Bytes of a `QByteArray` are natural numbers `0..255`; an `int8_t` is an integer in
  `-128..127`; the conversions between them are written out (`toInt8`, `toByte`).
* A `QString` that the code inspects character by character is a `List Char`; file names and
  digests, which are only compared, are `String`s.
* The table `modlib_modules` is a `List Row`; a prepared statement is a function on that list
  which fails (`none`) when a constraint of the schema is violated.
* Everything outside the repository (the file system, libopenmpt, the hash function, Qt's path
  normalisation) is a field of `World`.
-/

namespace ModLibrary

/-! ## Machine integers -/

/-- Conversion of an integer to `int8_t`: two's-complement wrap into `-128..127`. -/
def toInt8 (x : Int) : Int := (x + 128) % 256 - 128

/-- Conversion of an integer to the `char` pushed onto a `QByteArray`, kept as the unsigned
value `0..255` of the byte. -/
def toByte (x : Int) : Nat := (x % 256).toNat

/-! ## The module inspector (libopenmpt) -/

/-- The part of the `openmpt::module` interface the library reads.  The subsong chosen by
`select_subsong` is passed explicitly to the two calls that depend on it (`-1` is the selection
of a freshly loaded module); `get_pattern_row_channel_command` takes the pattern, the row, the
channel and the command index.  `duration_ms` stands for
`static_cast<int>(mod.get_duration_seconds() * 1000)`. -/
structure OpenmptModule where
  get_num_channels : Nat
  get_num_subsongs : Nat
  get_num_orders : Int → Nat
  get_order_pattern : Int → Nat → Int
  get_pattern_num_rows : Int → Nat
  get_pattern_row_channel_command : Int → Nat → Nat → Nat → Nat
  get_num_patterns : Nat
  get_num_samples : Nat
  get_num_instruments : Nat
  get_sample_names : List String
  get_instrument_names : List String
  get_metadata : String → String
  duration_ms : Int

/-- `openmpt::module::command_note`, the first member of `command_index`. -/
def command_note : Nat := 0

/-- The test `note > 0 && note <= 128` of `BuildNoteString`. -/
def isNote (note : Nat) : Bool := decide (0 < note) && decide (note ≤ 128)

/-- Body of the row loop of `BuildNoteString` for the cell value `note` (already a `uint8_t`):
the state is the byte array and `lastNote`. -/
def noteStep (st : List Nat × Int) (note : Nat) : List Nat × Int :=
  if isNote note then (st.1 ++ [toByte (toInt8 note - st.2)], toInt8 note) else st

/-- `BuildNoteString` of `database.cpp`: appends the note deltas of `mod` to `notes`.
The four nested `for` loops are folds over `List.range`; the loop state is `(notes, lastNote)`. -/
def BuildNoteString (mod : OpenmptModule) (notes : List Nat) : List Nat :=
  let numChannels := mod.get_num_channels
  let numSongs := mod.get_num_subsongs
  ((List.range numSongs).foldl (fun st (s : Nat) =>
    let numOrders := mod.get_num_orders s
    (List.range numChannels).foldl (fun st c =>
      let st : List Nat × Int := (st.1 ++ [toByte (-st.2)], st.2)
      (List.range numOrders).foldl (fun st o =>
        let p := mod.get_order_pattern s o
        let numRows := mod.get_pattern_num_rows p
        (List.range numRows).foldl (fun st r =>
          noteStep st (mod.get_pattern_row_channel_command p r c command_note % 256)) st) st) st)
    ((notes, 0) : List Nat × Int)).1

/-! ## The table `modlib_modules` -/

/-- One row of `modlib_modules`; the fields are the columns of the `CREATE TABLE` statement.
`personal_comments` is `none` while the column is `NULL`. -/
structure Row where
  hash : String
  filename : String
  filesize : Int
  filedate : Int
  editdate : Int
  format : String
  title : String
  length : Int
  num_channels : Nat
  num_patterns : Nat
  num_orders : Nat
  num_subsongs : Nat
  num_samples : Nat
  num_instruments : Nat
  sample_text : String
  instrument_text : String
  comments : String
  artist : String
  personal_comments : Option String
  note_data : List Nat
deriving DecidableEq

/-- The result type `ModDatabase::AddResult`. -/
inductive AddResult where
  | NotAdded
  | Added
  | Updated
  | NoChange
  | IOError
deriving DecidableEq

/-- The prepared statement handed to `PrepareQuery`: `insertQuery`, or `updateQuery` with the
value bound to `:filename_old`. -/
inductive Query where
  | insertQuery
  | updateQuery (filename_old : String)

/-- `selectQuery`: `SELECT * FROM modlib_modules WHERE filename = :filename`, first row. -/
def selectExec (db : List Row) (filename : String) : Option Row :=
  db.find? (fun x => decide (x.filename = filename))

/-- `insertQuery.exec()`: the statement fails when `hash` (primary key) or `filename` (unique)
is already present; otherwise the row is added, `personal_comments` being left `NULL`. -/
def insertExec (db : List Row) (r : Row) : Option (List Row) :=
  if db.any (fun x => decide (x.hash = r.hash) || decide (x.filename = r.filename)) then none
  else some (db ++ [{ r with personal_comments := none }])

/-- `updateQuery.exec()`: every row whose `filename` is `filename_old` gets all columns of `r`
except `personal_comments`.  With no such row the statement succeeds and changes nothing; it
fails, changing nothing, when the new `hash` or `filename` would collide with another row. -/
def updateExec (db : List Row) (r : Row) (filename_old : String) : Option (List Row) :=
  let hit := db.filter (fun x => decide (x.filename = filename_old))
  let rest := db.filter (fun x => !decide (x.filename = filename_old))
  if hit.isEmpty then some db
  else if decide (1 < hit.length) ||
      rest.any (fun x => decide (x.hash = r.hash) || decide (x.filename = r.filename)) then none
  else some (db.map fun x =>
    if x.filename = filename_old then { r with personal_comments := x.personal_comments } else x)

/-- `removeQuery.exec()`: `DELETE FROM modlib_modules WHERE filename = :filename`. -/
def removeExec (db : List Row) (filename : String) : List Row :=
  db.filter (fun x => !decide (x.filename = filename))

/-- `updateCommentsQuery.exec()`. -/
def updateCommentsExec (db : List Row) (filename comments : String) : List Row :=
  db.map fun x => if x.filename = filename then { x with personal_comments := some comments } else x

/-- Execution of the statement chosen by `Query` with the values bound from `r`. -/
def Query.exec (q : Query) (db : List Row) (r : Row) : Option (List Row) :=
  match q with
  | .insertQuery => insertExec db r
  | .updateQuery filename_old => updateExec db r filename_old

/-! ## The environment of the database code -/

/-- What `PrepareQuery` reads from outside the repository.
`readAll path` is `QFile(path).open(ReadOnly)` followed by `readAll()` (`none`: the file cannot
be opened); `load` is the constructor of `openmpt::module` (`none`: it throws
`openmpt::exception`); `sha512Base64` is `QCryptographicHash::hash(·, Sha512).toBase64()`;
`lastModified` is `QFileInfo(file).lastModified().toTime_t()`; `isoDateToTime_t` is
`QDateTime::fromString(·, Qt::ISODate).toTime_t()`. -/
structure World where
  fromNativeSeparators : String → String
  readAll : String → Option (List Nat)
  lastModified : String → Int
  load : List Nat → Option OpenmptModule
  sha512Base64 : List Nat → String
  isoDateToTime_t : String → Int

/-- The values `PrepareQuery` binds to the statement, as a row (`personal_comments` is not
bound by either statement). -/
def boundRow (w : World) (path : String) (content : List Nat) (mod : OpenmptModule) : Row :=
  { hash := w.sha512Base64 content
    filename := w.fromNativeSeparators path
    filesize := content.length
    filedate := w.lastModified path
    editdate := w.isoDateToTime_t (mod.get_metadata "date")
    format := mod.get_metadata "type"
    title := mod.get_metadata "title"
    length := mod.duration_ms
    num_channels := mod.get_num_channels
    num_patterns := mod.get_num_patterns
    num_orders := mod.get_num_orders (-1)
    num_subsongs := mod.get_num_subsongs
    num_samples := mod.get_num_samples
    num_instruments := mod.get_num_instruments
    sample_text := mod.get_sample_names.foldl (fun acc name => acc ++ (name ++ "\n")) ""
    instrument_text := mod.get_instrument_names.foldl (fun acc name => acc ++ (name ++ "\n")) ""
    comments := mod.get_metadata "message"
    artist := mod.get_metadata "artist"
    personal_comments := none
    note_data := BuildNoteString mod [] }

/-- `ModDatabase::PrepareQuery`: the result and the table afterwards. -/
def PrepareQuery (w : World) (db : List Row) (path : String) (query : Query) :
    AddResult × List Row :=
  match w.readAll path with
  | none => (.IOError, db)
  | some content =>
    match w.load content with
    | none => (.NotAdded, db)
    | some mod =>
      let hashStr := w.sha512Base64 content
      let dbPath := w.fromNativeSeparators path
      let same : Bool :=
        match selectExec db dbPath with
        | some row => decide (row.hash = hashStr)
        | none => false
      if same then (.NoChange, db)
      else
        match query.exec db (boundRow w path content mod) with
        | none => (.NotAdded, db)
        | some db' => (.Added, db')

/-- `ModDatabase::UpdateModule`. -/
def UpdateModule (w : World) (db : List Row) (path : String) : AddResult × List Row :=
  let result := PrepareQuery w db path (.updateQuery path)
  (if result.1 = .Added then .Updated else result.1, result.2)

/-- `ModDatabase::AddModule`. -/
def AddModule (w : World) (db : List Row) (path : String) : AddResult × List Row :=
  let result := PrepareQuery w db path .insertQuery
  if result.1 ≠ .NotAdded then result else UpdateModule w result.2 path

/-- `ModDatabase::UpdateComments`. -/
def UpdateComments (db : List Row) (path comments : String) : List Row :=
  updateCommentsExec db path comments

/-- `ModDatabase::RemoveModule`. -/
def RemoveModule (w : World) (db : List Row) (path : String) : List Row :=
  removeExec db (w.fromNativeSeparators path)

/-- The counters of `ModLibrary::OnMaintain` together with the table. -/
structure MaintainState where
  db : List Row
  files : Nat
  updatedFiles : Nat
  removedFiles : Nat

/-- Body of the `while` loop of `ModLibrary::OnMaintain` for one file name of the result set
(the run is not cancelled). -/
def maintainStep (w : World) (st : MaintainState) (fileName : String) : MaintainState :=
  let result := UpdateModule w st.db fileName
  match result.1 with
  | .Updated | .Added =>
    { db := result.2, files := st.files + 1, updatedFiles := st.updatedFiles + 1,
      removedFiles := st.removedFiles }
  | .NoChange =>
    { db := result.2, files := st.files + 1, updatedFiles := st.updatedFiles,
      removedFiles := st.removedFiles }
  | .IOError | .NotAdded =>
    { db := RemoveModule w result.2 fileName, files := st.files + 1,
      updatedFiles := st.updatedFiles, removedFiles := st.removedFiles + 1 }

/-- `ModLibrary::OnMaintain`: the loop runs over the file names that
`SELECT filename FROM modlib_modules` returned for the table as it was when the sweep began. -/
def OnMaintain (w : World) (db : List Row) : MaintainState :=
  (db.map (fun x => x.filename)).foldl (maintainStep w)
    { db := db, files := 0, updatedFiles := 0, removedFiles := 0 }

/-- One result row of the query of `ModLibrary::OnFindDupes`. -/
structure DupeRow where
  filename : String
  title : String
  filesize : Int
  filedate : Int
  count : Nat
deriving DecidableEq

/-- The query of `ModLibrary::OnFindDupes`:
`SELECT filename, title, filesize, filedate, COUNT(*) FROM modlib_modules GROUP BY hash
HAVING COUNT(*) > 1`.  One result row per digest held by more than one row of the table; the
bare columns are taken from the last row of the group, and groups are listed in the order in
which their digest first occurs (SQL fixes neither choice). -/
def OnFindDupes (db : List Row) : List DupeRow :=
  (db.map (fun x => x.hash)).eraseDups.filterMap fun h =>
    let group := db.filter (fun x => decide (x.hash = h))
    match group.getLast? with
    | some x =>
      if 1 < group.length then
        some { filename := x.filename, title := x.title, filesize := x.filesize,
               filedate := x.filedate, count := group.length }
      else none
    | none => none

/-! ## The melody search of `DoSearch` -/

/-- `QChar::isSpace`: the ASCII white space characters, NEL, the no-break space and the Unicode
separators (categories Zs, Zl, Zp). -/
def QChar_isSpace (c : Char) : Bool :=
  let u := c.toNat
  u == 0x20 || (decide (0x09 ≤ u) && decide (u ≤ 0x0d)) || u == 0x85 || u == 0xa0 ||
    u == 0x1680 || (decide (0x2000 ≤ u) && decide (u ≤ 0x200a)) || u == 0x2028 || u == 0x2029 ||
    u == 0x202f || u == 0x205f || u == 0x3000

/-- The maximal runs of characters that are not white space, in order. -/
def words (s : List Char) : List (List Char) :=
  (s.splitOnP QChar_isSpace).filter (fun t => !t.isEmpty)

/-- `QString::simplified`: white space removed from both ends, every inner run of white space
replaced by one space. -/
def QString_simplified (s : List Char) : List Char :=
  [' '].intercalate (words s)

/-- `QString::split(sep)` with the default `KeepEmptyParts`. -/
def QString_split (sep : Char) (s : List Char) : List (List Char) :=
  s.splitOn sep

/-- The number written by a non-empty string of decimal digits. -/
def digitsValue (ds : List Char) : Option Nat :=
  if ds.isEmpty || !ds.all (fun c => decide ('0' ≤ c) && decide (c ≤ '9')) then none
  else some (ds.foldl (fun acc c => acc * 10 + (c.toNat - 48)) 0)

/-- The integer written by a token: an optional sign followed by decimal digits. -/
def decimalValue (tok : List Char) : Option Int :=
  match tok with
  | [] => none
  | c :: ds =>
    if c = '-' then (digitsValue ds).map (fun n => -(n : Int))
    else if c = '+' then (digitsValue ds).map (fun n => (n : Int))
    else (digitsValue (c :: ds)).map (fun n => (n : Int))

/-- `QString::toInt()`: the value of the token when it is a decimal integer that fits an
`int` (32 bits), and `0` when the conversion fails. -/
def QString_toInt (tok : List Char) : Int :=
  match decimalValue tok with
  | some z => if -2147483648 ≤ z ∧ z ≤ 2147483647 then z else 0
  | none => 0

/-- What the melody loop of `DoSearch` builds: `clauses` lists, in order, the `k` of every
`"AND INSTR(note_data, :note_datak) > 0 "` appended to `queryStr`. -/
structure MelodySearch where
  clauses : List Nat
  melodyBytes : List (List Nat)
  melodyCount : Nat
deriving DecidableEq

/-- Body of the loop over `melodies` in `DoSearch`. -/
def melodyStep (st : MelodySearch) (melody : List Char) : MelodySearch :=
  let melodyStr := QString_simplified melody
  let notes := QString_split ' ' melodyStr
  if !melodyStr.isEmpty && !notes.isEmpty then
    let pushed := st.melodyBytes ++ [[]]
    let filled := notes.foldl (fun (mb : List (List Nat)) note =>
      let n := toInt8 (QString_toInt note)
      mb.set st.melodyCount (mb.getD st.melodyCount [] ++ [toByte n])) pushed
    { clauses := st.clauses ++ [st.melodyCount]
      melodyBytes := filled
      melodyCount := st.melodyCount + 1 }
  else st

/-- The melody part of `DoSearch` (the block `// Search for melody`), for the text of the
melody field. -/
def DoSearch_melody (melodyText : List Char) : MelodySearch :=
  (QString_split '|' melodyText).foldl melodyStep
    { clauses := [], melodyBytes := [], melodyCount := 0 }

/-- SQL `INSTR(X, Y)` on two blobs: one plus the number of bytes before the first occurrence
of `Y` in `X`, and `0` when `Y` does not occur. -/
def INSTR : List Nat → List Nat → Nat
  | [], Y => if Y = [] then 1 else 0
  | x :: X, Y =>
    if Y <+: x :: X then 1
    else match INSTR X Y with
      | 0 => 0
      | k + 1 => k + 2

/-- The conjunction of the melody clauses of the query on a row with the given `note_data`,
after `query.bindValue(":note_data" + i, melodyBytes[i])` for every `i`; a clause whose
parameter is not bound compares `NULL` and rejects. -/
def melodyFilter (q : MelodySearch) (note_data : List Nat) : Bool :=
  q.clauses.all fun k =>
    match q.melodyBytes[k]? with
    | some needle => decide (0 < INSTR note_data needle)
    | none => false

/-! ## Reading `BuildNoteString` as a stream -/

/-- The cell values `BuildNoteString` reads for channel `c` of subsong `s`, in playback order
(orders, then rows). -/
def cells (mod : OpenmptModule) (s c : Nat) : List Nat :=
  (List.range (mod.get_num_orders s)).flatMap fun o =>
    (List.range (mod.get_pattern_num_rows (mod.get_order_pattern s o))).map fun r =>
      mod.get_pattern_row_channel_command (mod.get_order_pattern s o) r c command_note % 256

/-- The valid notes among the cells of channel `c` of subsong `s`. -/
def validNotes (mod : OpenmptModule) (s c : Nat) : List Nat :=
  (cells mod s c).filter isNote

/-- The valid notes of all traversals, subsong by subsong and channel by channel. -/
def traversals (mod : OpenmptModule) : List (List Nat) :=
  (List.range mod.get_num_subsongs).flatMap fun s =>
    (List.range mod.get_num_channels).map fun c => validNotes mod s c

/-- Delta encoding of a note sequence from the running value `last`. -/
def deltaEncode (last : Int) : List Nat → List Nat
  | [] => []
  | n :: ns => toByte (toInt8 n - last) :: deltaEncode (toInt8 n) ns

/-- The running value after the notes `ns`, starting from `last`. -/
def lastAfter (last : Int) : List Nat → Int
  | [] => last
  | n :: ns => lastAfter (toInt8 n) ns

/-- The successive differences of a note sequence, modulo 256. -/
def intervals : List Nat → List Nat
  | a :: b :: ns => toByte ((b : Int) - (a : Int)) :: intervals (b :: ns)
  | _ => []

/-- The module `mod` with the cell at pattern `p`, row `r`, channel `c` holding `v`. -/
def setCell (mod : OpenmptModule) (p : Int) (r c v : Nat) : OpenmptModule :=
  { mod with
    get_pattern_row_channel_command := fun p' r' c' command =>
      if p' = p ∧ r' = r ∧ c' = c ∧ command = command_note then v
      else mod.get_pattern_row_channel_command p' r' c' command }

/-- The module `mod` with a new row, holding the note value `fill c` in channel `c` and no
other command, inserted before row `r` of pattern `p`. -/
def insertRow (mod : OpenmptModule) (p : Int) (r : Nat) (fill : Nat → Nat) : OpenmptModule :=
  { mod with
    get_pattern_num_rows := fun p' =>
      if p' = p then mod.get_pattern_num_rows p + 1 else mod.get_pattern_num_rows p'
    get_pattern_row_channel_command := fun p' r' c' command =>
      if p' = p then
        if r' < r then mod.get_pattern_row_channel_command p r' c' command
        else if r' = r then (if command = command_note then fill c' else 0)
        else mod.get_pattern_row_channel_command p (r' - 1) c' command
      else mod.get_pattern_row_channel_command p' r' c' command }

/-- The output of the encoder for the traversals `vs` (their valid notes), from the running
value `last`: per traversal one synchronisation byte followed by the deltas. -/
def segments (last : Int) : List (List Nat) → List (List Nat)
  | [] => []
  | v :: vs => (toByte (-last) :: deltaEncode last v) :: segments (lastAfter last v) vs

/-- The bytes the inner loop of the melody search pushes for one phrase: one byte per part of
`melodyStr.split(' ')`. -/
def phraseBytes (melody : List Char) : List Nat :=
  (QString_split ' ' (QString_simplified melody)).map fun note =>
    toByte (toInt8 (QString_toInt note))

/-! ## Predicates on the table and the file system -/

/-- The file at `path` can be read and libopenmpt accepts its bytes. -/
def scannable (w : World) (path : String) : Bool :=
  match w.readAll path with
  | none => false
  | some content => (w.load content).isSome

/-- The row carries the digest of the bytes now found under its file name, and these bytes
load as a module. -/
def UpToDate (w : World) (r : Row) : Prop :=
  ∃ content mod, w.readAll r.filename = some content ∧ w.load content = some mod ∧
    r.hash = w.sha512Base64 content

/-- The invariant of the sweep: file names are not repeated and are in Qt's form, and every
row whose file name is no longer waiting in `L` is up to date. -/
def SweepInv (w : World) (db : List Row) (L : List String) : Prop :=
  (db.map fun x => x.filename).Nodup ∧
    (∀ r ∈ db, w.fromNativeSeparators r.filename = r.filename) ∧
    (∀ r ∈ db, r.filename ∈ L ∨ UpToDate w r)

/-! ## A concrete module, file system and tables -/

/-- A module with one subsong, one channel and one pattern of four rows holding the notes
60, 62, none, 62. -/
def sampleModule : OpenmptModule :=
  { get_num_channels := 1
    get_num_subsongs := 1
    get_num_orders := fun _ => 1
    get_order_pattern := fun _ _ => 0
    get_pattern_num_rows := fun p => if p = 0 then 4 else 0
    get_pattern_row_channel_command := fun _ r _ command =>
      if command = command_note then
        if r = 0 then 60 else if r = 1 then 62 else if r = 3 then 62 else 0
      else 0
    get_num_patterns := 1
    get_num_samples := 0
    get_num_instruments := 0
    get_sample_names := []
    get_instrument_names := []
    get_metadata := fun _ => ""
    duration_ms := 0 }

/-- A file system with two readable files, `a.mod` and `b.mod`, of identical bytes, and a
file `c.txt` whose bytes are not a module.  Paths are already in Qt's form; the digest of a
string of bytes below 128 is the text they spell (`M.K.` for the two modules). -/
def sampleWorld : World :=
  { fromNativeSeparators := fun p => p
    readAll := fun p =>
      if p = "a.mod" then some [77, 46, 75, 46]
      else if p = "b.mod" then some [77, 46, 75, 46]
      else if p = "c.txt" then some [0]
      else none
    lastModified := fun _ => 0
    load := fun content => if content = [77, 46, 75, 46] then some sampleModule else none
    sha512Base64 := fun content => String.mk (content.map fun b => Char.ofNat (b % 128))
    isoDateToTime_t := fun _ => 0 }

/-- A row with the given digest and file name, a personal comment, and nothing else. -/
def sampleRow (hash filename : String) : Row :=
  { hash := hash, filename := filename, filesize := 0, filedate := 0, editdate := 0,
    format := "", title := "", length := 0, num_channels := 0, num_patterns := 0,
    num_orders := 0, num_subsongs := 0, num_samples := 0, num_instruments := 0,
    sample_text := "", instrument_text := "", comments := "", artist := "",
    personal_comments := some "mine", note_data := [] }


/-! ## Pasting a pattern: `OnPasteMPT` -/

/-- The decimal digits of `n`, least significant first (`fuel` bounds their number). -/
def natDigitsRev : Nat → Nat → List Char
  | 0, _ => []
  | fuel + 1, n =>
    if n < 10 then [Char.ofNat (48 + n)]
    else Char.ofNat (48 + n % 10) :: natDigitsRev fuel (n / 10)

/-- `QString::number(int)`: the decimal notation, with a leading `-` for a negative number. -/
def QString_number (z : Int) : List Char :=
  if z < 0 then '-' :: (natDigitsRev (z.natAbs + 1) z.natAbs).reverse
  else (natDigitsRev (z.natAbs + 1) z.natAbs).reverse

/-- `QString::indexOf(QString, from)` for a one-character string: the first position not
before `from` that holds `ch`; `none` stands for `-1`. -/
def QString_indexOf (s : List Char) (ch : Char) (from_ : Nat) : Option Nat :=
  if (s.drop from_).indexOf ch < (s.drop from_).length then
    some (from_ + (s.drop from_).indexOf ch)
  else none

/-- `QString::indexOf(QString)`: the first position at which `pat` occurs in `s`. -/
def QString_indexOfStr : List Char → List Char → Option Nat
  | [], pat => if pat = [] then some 0 else none
  | c :: s, pat =>
    if pat <+: c :: s then some 0
    else (QString_indexOfStr s pat).map fun k => k + 1

/-- The table `notes` of `OnPasteMPT`. -/
def noteNames : List (List Char) :=
  [['C', '-'], ['C', '#'], ['D', '-'], ['D', '#'], ['E', '-'], ['F', '-'],
   ['F', '#'], ['G', '-'], ['G', '#'], ['A', '-'], ['A', '#'], ['B', '-']]

/-- `QChar::toLatin1`: the code of the character, `0` when it is above 255. -/
def QChar_toLatin1 (c : Char) : Nat := if c.toNat ≤ 255 then c.toNat else 0

/-- The loop `for(int i = 0; i <= channels; i++)` of `OnPasteMPT`, with `more` iterations
still to run after the next one and the next search starting at `from_` (`offset + 1`): the
position of the last `|` found, `none` as soon as one search fails. -/
def barLoop (line : List Char) : Nat → Nat → Option Nat
  | 0, from_ => QString_indexOf line '|' from_
  | more + 1, from_ =>
    match QString_indexOf line '|' from_ with
    | none => none
    | some offset => barLoop line more (offset + 1)

/-- The position of the `|` that opens column `channels` of `line`, if the line has one. -/
def barOffset (line : List Char) (channels : Nat) : Option Nat :=
  barLoop line channels 0

/-- The note the code reads from `line` behind the `|` at `offset`, given the character
`octave` found at `offset + 3`; `0` when it recognises none. -/
def cellNote (line : List Char) (offset : Nat) (octave : Char) : Int :=
  let o := QChar_toLatin1 octave
  if 48 ≤ o ∧ o ≤ 57 then
    let noteStr := (line.drop (offset + 1)).take 2
    let i := noteNames.indexOf noteStr
    if i < 12 then (i : Int) + ((o : Int) - 48) * 12 else 0
  else 0

/-- Body of the loop over `lines` in `OnPasteMPT` for the column `channels`; the state is
`(prevNote, melody)`.  The result is `none` when `line->at(offset + 3)` lies outside the
line. -/
def pasteLine (channels : Nat) (st : Int × List Char) (line : List Char) :
    Option (Int × List Char) :=
  match barOffset line channels with
  | none => some st
  | some offset =>
    let prevNote : Int := if st.1 = -1 then 0 else st.1
    match line.get? (offset + 3) with
    | none => none
    | some octave =>
      let note := cellNote line offset octave
      if note ≠ 0 then
        let diff := note - prevNote
        some (note, if prevNote ≠ 0 then st.2 ++ (QString_number diff ++ [' ']) else st.2)
      else some (prevNote, st.2)

/-- One pass of the `do` loop of `OnPasteMPT` over all lines, from the state `st`. -/
def pastePass (lines : List (List Char)) (channels : Nat) (st : Int × List Char) :
    Option (Int × List Char) :=
  lines.foldlM (pasteLine channels) st

/-- What a call of `OnPasteMPT` does with the clipboard text. -/
inductive PasteResult where
  | unchanged
  | setText (melody : List Char)
  | outOfRange
  | outOfFuel
deriving DecidableEq

/-- The `do ... while (prevNote != -1)` loop of `OnPasteMPT`, run for at most `fuel` passes. -/
def pasteLoop (lines : List (List Char)) : Nat → Nat → List Char → PasteResult
  | 0, _, _ => .outOfFuel
  | fuel + 1, channels, melody =>
    match pastePass lines channels (-1, melody) with
    | none => .outOfRange
    | some (prevNote, melody) =>
      let melody := if prevNote ≠ 0 then melody ++ ['|'] else melody
      if prevNote ≠ -1 then pasteLoop lines fuel (channels + 1) melody
      else .setText melody

/-- The lines `OnPasteMPT` walks: the text behind the marker, split at line feeds; `none` when
the marker is missing. -/
def pasteLines (data : List Char) : Option (List (List Char)) :=
  match QString_indexOfStr data "ModPlug Tracker ".toList with
  | none => none
  | some offset => some (QString_split '\n' (data.drop (offset + 16)))

/-- `ModLibrary::OnPasteMPT` for a clipboard that holds the text `data`: `unchanged` when the
marker is missing (the function returns before `setText`), `setText melody` when the loop
ends, `outOfRange` when `line->at(offset + 3)` is called with a position outside the line.
The loop gets one pass more than the lines have characters. -/
def OnPasteMPT (data : List Char) : PasteResult :=
  match pasteLines data with
  | none => .unchanged
  | some lines => pasteLoop lines ((lines.map List.length).sum + 1) 0 []

/-- The text one pass of `OnPasteMPT` appends for the column `channels`: the intervals and,
when the pass leaves `prevNote` non-zero, the `|`. -/
def passText (lines : List (List Char)) (channels : Nat) : List Char :=
  match pastePass lines channels (-1, []) with
  | none => []
  | some (prevNote, melody) => if prevNote ≠ 0 then melody ++ ['|'] else melody

/-! ## Reachable tables -/

/-- The tables that calls of `AddModule`, `UpdateModule`, `UpdateComments` and `RemoveModule`
produce from the empty table; the file system may differ from call to call. -/
inductive Reachable : List Row → Prop where
  | empty : Reachable []
  | addModule (w : World) (db : List Row) (path : String) :
      Reachable db → Reachable (AddModule w db path).2
  | updateModule (w : World) (db : List Row) (path : String) :
      Reachable db → Reachable (UpdateModule w db path).2
  | updateComments (db : List Row) (path comments : String) :
      Reachable db → Reachable (UpdateComments db path comments)
  | removeModule (w : World) (db : List Row) (path : String) :
      Reachable db → Reachable (RemoveModule w db path)

/-- No digest and no file name occurs twice. -/
def Distinct (db : List Row) : Prop :=
  (db.map fun x => x.hash).Nodup ∧ (db.map fun x => x.filename).Nodup

/-! ## The whole of `DoSearch` -/

/-- What `DoSearch` reads from the search form.  The date limits are the `time_t` values the
code computes from the date fields (`QDateTime(...).toTime_t()`). -/
structure SearchForm where
  findWhat : List Char
  fingerprint : List Char
  melody : List Char
  findFilename : Bool
  findTitle : Bool
  findArtist : Bool
  findSampleText : Bool
  findInstrumentText : Bool
  findComments : Bool
  findPersonal : Bool
  limitSize : Bool
  limitSizeUnit : Nat
  limitMinSize : Int
  limitMaxSize : Int
  limitFileDate : Bool
  limitFileDateMin : Int
  limitFileDateMax : Int
  limitYear : Bool
  limitReleaseDateMin : Int
  limitReleaseDateMax : Int
  limitTime : Bool
  limitTimeMin : Int
  limitTimeMax : Int

/-- `QString::replace(QChar, QString)`: every occurrence of `ch` replaced by `after`. -/
def QString_replace (ch : Char) (after : List Char) (s : List Char) : List Char :=
  s.flatMap fun x => if x = ch then after else [x]

/-- `QString::trimmed`: white space removed from both ends. -/
def QString_trimmed (s : List Char) : List Char :=
  ((s.dropWhile QChar_isSpace).reverse.dropWhile QChar_isSpace).reverse

/-- What `DoSearch` hands on: the text of the query, the value bound to `:str`, the values
bound to `:note_data0`, `:note_data1`, ..., the decoded fingerprint given to the table model
(with its size), and the column of the descending sort when `sortByColumn` is called. -/
structure SearchRun where
  queryStr : String
  str : List Char
  note_data : List (List Nat)
  rawFingerprint : List Nat
  sortByColumn : Option Nat
deriving DecidableEq

/-- The text `"AND (column BETWEEN lo AND hi) "` after the swap `if(lo > hi)`. -/
def betweenClause (column : String) (lo hi : Int) : String :=
  let lo' := if lo > hi then hi else lo
  let hi' := if lo > hi then lo else hi
  "AND (`" ++ column ++ "` BETWEEN " ++ String.mk (QString_number lo') ++ " AND " ++
    String.mk (QString_number hi') ++ ") "

/-- The statement `if(c) queryStr += text;`. -/
def appendIf (c : Bool) (queryStr text : String) : String :=
  if c then queryStr ++ text else queryStr

/-- The body of `if(!showAll)` in `DoSearch` as far as it extends `queryStr`: the text
filter, the four range filters and one clause per entry of `clauses`, the parameter numbers
the melody loop used.  Sizes and durations are multiplied without overflow. -/
def DoSearch_where (ui : SearchForm) (clauses : List Nat) (queryStr : String) : String :=
  let queryStr := queryStr ++ "WHERE (0 "
  let queryStr := appendIf ui.findFilename queryStr "OR `filename` LIKE :str ESCAPE '\\' "
  let queryStr := appendIf ui.findTitle queryStr "OR `title` LIKE :str ESCAPE '\\' "
  let queryStr := appendIf ui.findArtist queryStr "OR `artist` LIKE :str ESCAPE '\\' "
  let queryStr :=
    appendIf ui.findSampleText queryStr "OR `sample_text` LIKE :str ESCAPE '\\' "
  let queryStr :=
    appendIf ui.findInstrumentText queryStr "OR `instrument_text` LIKE :str ESCAPE '\\' "
  let queryStr := appendIf ui.findComments queryStr "OR `comments` LIKE :str ESCAPE '\\' "
  let queryStr :=
    appendIf ui.findPersonal queryStr "OR `personal_comments` LIKE :str ESCAPE '\\' "
  let queryStr := queryStr ++ ") "
  let queryStr := appendIf ui.limitSize queryStr
    (betweenClause "filesize" (ui.limitMinSize * 2 ^ (10 * ui.limitSizeUnit))
      (ui.limitMaxSize * 2 ^ (10 * ui.limitSizeUnit)))
  let queryStr := appendIf ui.limitFileDate queryStr
    (betweenClause "filedate" ui.limitFileDateMin ui.limitFileDateMax)
  let queryStr := appendIf ui.limitYear queryStr
    (betweenClause "editdate" ui.limitReleaseDateMin ui.limitReleaseDateMax)
  let queryStr := appendIf ui.limitTime queryStr
    (betweenClause "length" (ui.limitTimeMin * 1000) (ui.limitTimeMax * 1000))
  clauses.foldl (fun queryStr (melodyCount : Nat) =>
    queryStr ++ ("AND INSTR(`note_data`, :note_data" ++
      (String.mk (QString_number melodyCount) ++ ") > 0 "))) queryStr

/-- `ModLibrary::DoSearch`, up to the call of `sortByColumn`.  `chromaprint_decode_fingerprint`
is the decoder of the chromaprint library, applied to the trimmed text of the fingerprint
field; it yields the decoded vector, whose length is `rawFingerprintSize`.  The melody loop is
`DoSearch_melody`; `DoSearch_where` appends its clauses to the query text in order. -/
def DoSearch (chromaprint_decode_fingerprint : List Char → List Nat) (ui : SearchForm)
    (showAll : Bool) : SearchRun :=
  let what := ui.findWhat
  let what := QString_replace '\\' ['\\', '\\'] what
  let what := QString_replace '%' ['\\', '%'] what
  let what := QString_replace '_' ['\\', '_'] what
  let what := QString_replace '*' ['%'] what
  let what := QString_replace '?' ['_'] what
  let what := '%' :: (what ++ ['%'])
  let fingerprint := QString_trimmed ui.fingerprint
  let rawFingerprint := chromaprint_decode_fingerprint fingerprint
  let rawFingerprintSize := rawFingerprint.length
  let queryStr := "SELECT `filename`, `title`, `filesize`, `filedate` "
  let queryStr := appendIf (decide (rawFingerprintSize ≠ 0)) queryStr ", `fingerprint` "
  let queryStr := queryStr ++ "FROM `modlib_modules` "
  let melodies : MelodySearch :=
    if !showAll then DoSearch_melody ui.melody
    else { clauses := [], melodyBytes := [], melodyCount := 0 }
  let queryStr := if !showAll then DoSearch_where ui melodies.clauses queryStr else queryStr
  { queryStr := queryStr
    str := what
    note_data := melodies.melodyBytes
    rawFingerprint := rawFingerprint
    sortByColumn := if rawFingerprintSize ≠ 0 then some 3 else none }

/-- A chromaprint decoder for the examples: it decodes the text `AQAA` and nothing else. -/
def sampleDecoder (fingerprint : List Char) : List Nat :=
  if fingerprint = ['A', 'Q', 'A', 'A'] then [7, 9] else []

/-- A search form for the examples: a text, a melody and a fingerprint field. -/
def sampleForm (fingerprint : List Char) : SearchForm :=
  { findWhat := ['a', '*'], fingerprint := fingerprint, melody := ['2', ' ', '0'],
    findFilename := true, findTitle := true, findArtist := false, findSampleText := false,
    findInstrumentText := false, findComments := false, findPersonal := false,
    limitSize := true, limitSizeUnit := 1, limitMinSize := 3, limitMaxSize := 1,
    limitFileDate := false, limitFileDateMin := 0, limitFileDateMax := 0,
    limitYear := false, limitReleaseDateMin := 0, limitReleaseDateMax := 0,
    limitTime := false, limitTimeMin := 0, limitTimeMax := 0 }

/-! ## Single-channel grids -/

/-- One line of a pasted single-channel pattern: a line without any `|` (`cell = none`, the
line is `rest`), or a `|`, a cell that is empty (`...`) or holds the note with name number `i`
and octave `k`, and the rest of the line (instrument, volume, effect, carriage return). -/
structure GridLine where
  cell : Option (Option (Fin 12 × Fin 10))
  rest : List Char
deriving DecidableEq

/-- The text of a line of the grid. -/
def GridLine.text (g : GridLine) : List Char :=
  match g.cell with
  | none => g.rest
  | some none => '|' :: '.' :: '.' :: '.' :: g.rest
  | some (some (i, k)) => '|' :: (noteNames.getD i.val [] ++ Char.ofNat (48 + k.val) :: g.rest)

/-- The clipboard text of a grid: the marker, then the lines separated by line feeds. -/
def pasteText (grid : List GridLine) : List Char :=
  "ModPlug Tracker ".toList ++ ['\n'].intercalate (grid.map GridLine.text)

/-- The notes of the grid in the numbering of `OnPasteMPT`: name number plus twelve times the
octave. -/
def gridNotes (grid : List GridLine) : List Nat :=
  grid.filterMap fun g =>
    match g.cell with
    | some (some (i, k)) => some (i.val + 12 * k.val)
    | _ => none

/-- The rows of the pattern that holds the cells of the grid, in the numbering of the module
inspector: `12 k + i + 1` for a note, `0` for an empty cell. -/
def gridRows (grid : List GridLine) : List Nat :=
  grid.filterMap fun g =>
    g.cell.map fun c =>
      match c with
      | none => 0
      | some (i, k) => 12 * k.val + i.val + 1

/-- The module with one subsong, one order, one channel and one pattern whose rows hold the
cells of the grid. -/
def gridModule (grid : List GridLine) : OpenmptModule :=
  { get_num_channels := 1
    get_num_subsongs := 1
    get_num_orders := fun _ => 1
    get_order_pattern := fun _ _ => 0
    get_pattern_num_rows := fun p => if p = 0 then (gridRows grid).length else 0
    get_pattern_row_channel_command := fun p r c command =>
      if p = 0 ∧ c = 0 ∧ command = command_note then (gridRows grid).getD r 0 else 0
    get_num_patterns := 1
    get_num_samples := 0
    get_num_instruments := 0
    get_sample_names := []
    get_instrument_names := []
    get_metadata := fun _ => ""
    duration_ms := 0 }

/-- The successive differences of a note sequence. -/
def noteDiffs : List Nat → List Int
  | a :: b :: ns => ((b : Int) - (a : Int)) :: noteDiffs (b :: ns)
  | _ => []

/-- The text a pass of `OnPasteMPT` appends for the recognised notes `ns` when `prevNote`
is `prev` before the first of them. -/
def diffsText : Int → List Nat → List Char
  | _, [] => []
  | prev, n :: ns =>
    (if prev ≠ 0 then QString_number ((n : Int) - prev) ++ [' '] else []) ++
      diffsText (n : Int) ns

/-- The value of `prevNote` a line with a cell works with. -/
def normPrev (p : Int) : Int := if p = -1 then 0 else p

/-- The grid `D-0`, `C-0`, `E-0`. -/
def lowGrid : List GridLine :=
  [{ cell := none, rest := [] }, { cell := some (some (2, 0)), rest := [] },
   { cell := some (some (0, 0)), rest := [] }, { cell := some (some (4, 0)), rest := [] }]

/-- The grid that holds the single note `D-0`. -/
def oneNoteGrid : List GridLine :=
  [{ cell := none, rest := [] }, { cell := some (some (2, 0)), rest := [] }]

/-- A grid as OpenMPT copies it: the format line, then `C-5`, an empty cell, `D-5`, `D-5`,
each with instrument and carriage return. -/
def sampleGrid : List GridLine :=
  [{ cell := none, rest := [' ', 'X', 'M', '\r'] },
   { cell := some (some (0, 5)), rest := ['0', '1', '\r'] },
   { cell := some none, rest := ['.', '.', '\r'] },
   { cell := some (some (2, 5)), rest := ['0', '1', '\r'] },
   { cell := some (some (2, 5)), rest := ['0', '1', '\r'] }]

/-! ## The encoder as a stream -/

theorem deltaEncode_append (last : Int) (a b : List Nat) :
    deltaEncode last (a ++ b) = deltaEncode last a ++ deltaEncode (lastAfter last a) b := by
  induction a generalizing last with
  | nil => simp [deltaEncode, lastAfter]
  | cons n ns ih => simp [deltaEncode, lastAfter, ih]

theorem lastAfter_append (last : Int) (a b : List Nat) :
    lastAfter last (a ++ b) = lastAfter (lastAfter last a) b := by
  induction a generalizing last with
  | nil => simp [lastAfter]
  | cons n ns ih => simp [lastAfter, ih]

theorem deltaEncode_length (last : Int) (a : List Nat) : (deltaEncode last a).length = a.length := by
  induction a generalizing last with
  | nil => simp [deltaEncode]
  | cons n ns ih => simp [deltaEncode, ih]

theorem segments_append (last : Int) (A B : List (List Nat)) :
    segments last (A ++ B) = segments last A ++ segments (lastAfter last A.flatten) B := by
  induction A generalizing last with
  | nil => simp [segments, lastAfter]
  | cons v vs ih => simp [segments, ih, lastAfter_append]

theorem segments_length (last : Int) (A : List (List Nat)) :
    (segments last A).length = A.length := by
  induction A generalizing last with
  | nil => simp [segments]
  | cons v vs ih => simp [segments, ih]

/-- The row loop over a list of cell values. -/
theorem foldl_noteStep (st : List Nat × Int) (L : List Nat) :
    L.foldl noteStep st =
      (st.1 ++ deltaEncode st.2 (L.filter isNote), lastAfter st.2 (L.filter isNote)) := by
  induction L generalizing st with
  | nil => simp [deltaEncode, lastAfter]
  | cons n ns ih =>
    rw [List.foldl_cons, ih]
    by_cases h : isNote n = true
    · simp [noteStep, h, deltaEncode, lastAfter]
    · simp [noteStep, h]

/-- The order loop of one channel traversal. -/
theorem foldl_orders (mod : OpenmptModule) (s c : Nat) (L : List Nat) (st : List Nat × Int) :
    L.foldl (fun st o =>
        (List.range (mod.get_pattern_num_rows (mod.get_order_pattern s o))).foldl (fun st r =>
          noteStep st
            (mod.get_pattern_row_channel_command (mod.get_order_pattern s o) r c command_note % 256))
          st) st =
      (st.1 ++ deltaEncode st.2 ((L.flatMap fun o =>
          (List.range (mod.get_pattern_num_rows (mod.get_order_pattern s o))).map fun r =>
            mod.get_pattern_row_channel_command (mod.get_order_pattern s o) r c command_note % 256).filter
              isNote),
        lastAfter st.2 ((L.flatMap fun o =>
          (List.range (mod.get_pattern_num_rows (mod.get_order_pattern s o))).map fun r =>
            mod.get_pattern_row_channel_command (mod.get_order_pattern s o) r c command_note % 256).filter
              isNote)) := by
  induction L generalizing st with
  | nil => simp [deltaEncode, lastAfter]
  | cons o os ih =>
    rw [List.foldl_cons, ih, ← List.foldl_map, foldl_noteStep]
    simp [List.flatMap_cons, deltaEncode_append, lastAfter_append]

/-- The channel loop of one subsong. -/
theorem foldl_channels (mod : OpenmptModule) (s : Nat) (L : List Nat) (st : List Nat × Int) :
    L.foldl (fun st c =>
        (List.range (mod.get_num_orders s)).foldl (fun st o =>
          (List.range (mod.get_pattern_num_rows (mod.get_order_pattern s o))).foldl (fun st r =>
            noteStep st
              (mod.get_pattern_row_channel_command (mod.get_order_pattern s o) r c command_note % 256))
            st) ((st.1 ++ [toByte (-st.2)], st.2) : List Nat × Int)) st =
      (st.1 ++ (segments st.2 (L.map fun c => validNotes mod s c)).flatten,
        lastAfter st.2 (L.map fun c => validNotes mod s c).flatten) := by
  induction L generalizing st with
  | nil => simp [segments, lastAfter]
  | cons c cs ih =>
    rw [List.foldl_cons, ih, foldl_orders]
    simp [segments, validNotes, cells, lastAfter_append]

/-- The subsong loop. -/
theorem foldl_songs (mod : OpenmptModule) (L : List Nat) (st : List Nat × Int) :
    L.foldl (fun st (s : Nat) =>
        (List.range mod.get_num_channels).foldl (fun st c =>
          (List.range (mod.get_num_orders s)).foldl (fun st o =>
            (List.range (mod.get_pattern_num_rows (mod.get_order_pattern s o))).foldl
              (fun st r =>
                noteStep st
                  (mod.get_pattern_row_channel_command (mod.get_order_pattern s o) r c command_note % 256))
              st) ((st.1 ++ [toByte (-st.2)], st.2) : List Nat × Int)) st) st =
      (st.1 ++ (segments st.2 (L.flatMap fun s =>
          (List.range mod.get_num_channels).map fun c => validNotes mod s c)).flatten,
        lastAfter st.2 (L.flatMap fun s =>
          (List.range mod.get_num_channels).map fun c => validNotes mod s c).flatten) := by
  induction L generalizing st with
  | nil => simp [segments, lastAfter]
  | cons s ss ih =>
    rw [List.foldl_cons, ih, foldl_channels]
    simp [List.flatMap_cons, segments_append, lastAfter_append]

/-- `BuildNoteString` appends, traversal by traversal, a synchronisation byte and the deltas
of the valid notes. -/
theorem BuildNoteString_eq (mod : OpenmptModule) (notes : List Nat) :
    BuildNoteString mod notes = notes ++ (segments 0 (traversals mod)).flatten := by
  unfold BuildNoteString
  simp only []
  rw [foldl_songs]
  rfl


/-! ## Consequences for the encoder -/

theorem toByte_toInt8_sub (a b : Int) : toByte (toInt8 b - toInt8 a) = toByte (b - a) := by
  unfold toByte toInt8
  congr 1
  omega

theorem deltaEncode_eq_intervals (a : Nat) (ns : List Nat) :
    deltaEncode (toInt8 a) ns = intervals (a :: ns) := by
  induction ns generalizing a with
  | nil => simp [deltaEncode, intervals]
  | cons n ns ih => simp [deltaEncode, intervals, ih, toByte_toInt8_sub]

theorem intervals_infix_deltaEncode (last : Int) (pre ns post : List Nat) :
    intervals ns <:+: deltaEncode last (pre ++ ns ++ post) := by
  cases ns with
  | nil => simp [intervals]
  | cons n ns =>
    refine ⟨deltaEncode last pre ++ [toByte (toInt8 n - lastAfter last pre)],
      deltaEncode (lastAfter (toInt8 n) ns) post, ?_⟩
    simp [deltaEncode_append, deltaEncode, deltaEncode_eq_intervals, lastAfter]

theorem infix_flatten_segments (v : List Nat) (vs : List (List Nat)) (hv : v ∈ vs) (last : Int) :
    ∃ l, deltaEncode l v <:+: (segments last vs).flatten := by
  induction vs generalizing last with
  | nil => simp at hv
  | cons u us ih =>
    rcases List.mem_cons.1 hv with h | h
    · subst h
      refine ⟨last, [toByte (-last)], (segments (lastAfter last v) us).flatten, ?_⟩
      simp [segments]
    · obtain ⟨l, hl⟩ := ih h (lastAfter last u)
      refine ⟨l, hl.trans ?_⟩
      simp only [segments, List.flatten_cons]
      exact (List.suffix_append _ _).isInfix


/-! ## The melody search -/

theorem INSTR_cons (x : Nat) (X Y : List Nat) :
    INSTR (x :: X) Y =
      if Y <+: x :: X then 1
      else match INSTR X Y with
        | 0 => 0
        | k + 1 => k + 2 := by
  rw [INSTR]

theorem INSTR_pos_iff (X Y : List Nat) : 0 < INSTR X Y ↔ Y <:+: X := by
  induction X with
  | nil =>
    unfold INSTR
    by_cases h : Y = [] <;> simp [h]
  | cons x X ih =>
    rw [List.infix_cons_iff, ← ih, INSTR_cons]
    by_cases h : Y <+: x :: X
    · simp [h]
    · simp only [h, if_false, false_or]
      cases INSTR X Y <;> simp

theorem QString_split_ne_nil (sep : Char) (s : List Char) : QString_split sep s ≠ [] :=
  List.splitOnP_ne_nil _ _

/-- Filling the byte array just pushed: the inner loop over `notes`. -/
theorem foldl_fill (g : List Char → Nat) (pre : List (List Nat)) (acc : List Nat)
    (notes : List (List Char)) :
    notes.foldl (fun (mb : List (List Nat)) note =>
        mb.set pre.length (mb.getD pre.length [] ++ [g note])) (pre ++ [acc]) =
      pre ++ [acc ++ notes.map g] := by
  induction notes generalizing acc with
  | nil => simp
  | cons n ns ih =>
    rw [List.foldl_cons]
    have h1 : (pre ++ [acc]).getD pre.length [] = acc := by simp [List.getD_eq_getElem?_getD]
    have h2 : (pre ++ [acc]).set pre.length (acc ++ [g n]) = pre ++ [acc ++ [g n]] := by
      simp [List.set_append]
    rw [h1, h2, ih]
    simp

theorem melodyStep_eq (st : MelodySearch) (melody : List Char)
    (hcount : st.melodyCount = st.melodyBytes.length) :
    melodyStep st melody =
      if QString_simplified melody = [] then st
      else { clauses := st.clauses ++ [st.melodyCount]
             melodyBytes := st.melodyBytes ++ [phraseBytes melody]
             melodyCount := st.melodyCount + 1 } := by
  unfold melodyStep
  by_cases h : QString_simplified melody = []
  · simp [h]
  · have hn := QString_split_ne_nil ' ' (QString_simplified melody)
    have hc : (!(QString_simplified melody).isEmpty &&
        !(QString_split ' ' (QString_simplified melody)).isEmpty) = true := by
      simp [List.isEmpty_iff, h, hn]
    simp only [hc, if_true, h, if_false]
    rw [hcount, foldl_fill (fun note => toByte (toInt8 (QString_toInt note)))]
    simp [phraseBytes]

/-- The needles kept for a list of phrases. -/
theorem foldl_melodyStep (phrases : List (List Char)) (st : MelodySearch)
    (hcount : st.melodyCount = st.melodyBytes.length)
    (hclauses : st.clauses = List.range st.melodyBytes.length) :
    (phrases.foldl melodyStep st).melodyBytes =
        st.melodyBytes ++
          (phrases.filter fun m => !decide (QString_simplified m = [])).map phraseBytes ∧
      (phrases.foldl melodyStep st).clauses =
        List.range (phrases.foldl melodyStep st).melodyBytes.length := by
  induction phrases generalizing st with
  | nil => simp [hclauses]
  | cons m ms ih =>
    rw [List.foldl_cons, melodyStep_eq st m hcount]
    by_cases h : QString_simplified m = []
    · simp only [h, if_true]
      have := ih st hcount hclauses
      simpa [h] using this
    · simp only [h, if_false]
      have := ih { clauses := st.clauses ++ [st.melodyCount]
                   melodyBytes := st.melodyBytes ++ [phraseBytes m]
                   melodyCount := st.melodyCount + 1 }
        (by simp [hcount]) (by simp [hclauses, hcount, List.range_succ])
      simpa [h] using this

theorem DoSearch_melody_bytes (melodyText : List Char) :
    (DoSearch_melody melodyText).melodyBytes =
      ((QString_split '|' melodyText).filter fun m =>
        !decide (QString_simplified m = [])).map phraseBytes := by
  have := (foldl_melodyStep (QString_split '|' melodyText)
    { clauses := [], melodyBytes := [], melodyCount := 0 } rfl rfl).1
  simpa [DoSearch_melody] using this

theorem DoSearch_melody_clauses (melodyText : List Char) :
    (DoSearch_melody melodyText).clauses =
      List.range (DoSearch_melody melodyText).melodyBytes.length :=
  (foldl_melodyStep (QString_split '|' melodyText)
    { clauses := [], melodyBytes := [], melodyCount := 0 } rfl rfl).2

/-- When the clauses name the bound parameters in order, the filter is the conjunction over
the needles. -/
theorem melodyFilter_eq_true_iff (q : MelodySearch) (note_data : List Nat)
    (hclauses : q.clauses = List.range q.melodyBytes.length) :
    melodyFilter q note_data = true ↔ ∀ needle ∈ q.melodyBytes, needle <:+: note_data := by
  unfold melodyFilter
  rw [hclauses, List.all_eq_true]
  constructor
  · intro h needle hmem
    obtain ⟨k, hk, rfl⟩ := List.mem_iff_getElem.1 hmem
    have := h k (List.mem_range.2 hk)
    simpa [List.getElem?_eq_getElem hk, INSTR_pos_iff] using this
  · intro h k hk
    have hk' := List.mem_range.1 hk
    simp only [List.getElem?_eq_getElem hk', decide_eq_true_eq, INSTR_pos_iff]
    exact h _ (List.getElem_mem hk')


/-! ## Typed phrases -/

theorem not_mem_of_mem_splitOnP (p : Char → Bool) (xs : List Char) :
    ∀ l ∈ xs.splitOnP p, ∀ x ∈ l, p x = false := by
  induction xs with
  | nil => simp
  | cons a as ih =>
    rw [List.splitOnP_cons]
    by_cases h : p a = true
    · simp only [h, if_true]
      intro l hl
      rcases List.mem_cons.1 hl with rfl | hl
      · simp
      · exact ih l hl
    · simp only [h, if_false]
      cases hs : as.splitOnP p with
      | nil => simp [List.modifyHead]
      | cons hd tl =>
        rw [hs] at ih
        intro l hl
        simp only [List.modifyHead] at hl
        rcases List.mem_cons.1 hl with hl | hl
        · subst hl
          intro x hx
          rcases List.mem_cons.1 hx with rfl | hx
          · simpa using h
          · exact ih hd (List.mem_cons_self _ _) x hx
        · exact ih l (List.mem_cons_of_mem _ hl)

theorem space_not_mem_of_mem_words (s : List Char) : ∀ l ∈ words s, ' ' ∉ l := by
  intro l hl hmem
  have := not_mem_of_mem_splitOnP QChar_isSpace s l (List.mem_of_mem_filter hl) ' ' hmem
  exact absurd this (by decide)

theorem ne_nil_of_mem_words (s : List Char) : ∀ l ∈ words s, l ≠ [] := by
  intro l hl
  have := (List.mem_filter.1 hl).2
  simpa [List.isEmpty_iff] using this

theorem QString_simplified_eq_nil_iff (s : List Char) :
    QString_simplified s = [] ↔ words s = [] := by
  unfold QString_simplified
  constructor
  · intro h
    cases hw : words s with
    | nil => rfl
    | cons w ws =>
      exfalso
      have hne := ne_nil_of_mem_words s w (by simp [hw])
      rw [hw] at h
      cases ws with
      | nil => simp [List.intercalate, List.intersperse] at h; exact hne h
      | cons w' ws' => simp [List.intercalate, List.intersperse] at h
  · intro h
    simp [h, List.intercalate]

/-- The parts of a simplified phrase are its words. -/
theorem split_simplified (s : List Char) (h : words s ≠ []) :
    QString_split ' ' (QString_simplified s) = words s :=
  List.splitOn_intercalate _ ' ' (space_not_mem_of_mem_words s) h

theorem phraseBytes_eq (s : List Char) (h : words s ≠ []) :
    phraseBytes s = (words s).map fun note => toByte (toInt8 (QString_toInt note)) := by
  unfold phraseBytes
  rw [split_simplified s h]

theorem toByte_toInt8 (z : Int) : toByte (toInt8 z) = (z % 256).toNat := by
  unfold toByte toInt8
  congr 1
  omega

theorem QString_split_of_not_mem (sep : Char) (s : List Char) (h : sep ∉ s) :
    QString_split sep s = [s] := by
  unfold QString_split List.splitOn
  apply List.splitOnP_eq_single
  intro x hx hxs
  have : x = sep := by simpa using hxs
  exact h (this ▸ hx)


/-! ## Cells that hold no valid note -/

theorem filter_map_congr_invalid (f g : Nat → Nat) (L : List Nat)
    (h : ∀ x ∈ L, f x = g x ∨ (isNote (f x) = false ∧ isNote (g x) = false)) :
    (L.map f).filter isNote = (L.map g).filter isNote := by
  induction L with
  | nil => rfl
  | cons x xs ih =>
    have hx := h x (List.mem_cons_self _ _)
    have ih' := ih fun y hy => h y (List.mem_cons_of_mem _ hy)
    rcases hx with hx | ⟨h1, h2⟩
    · simp [List.filter_cons, hx, ih']
    · simp [List.filter_cons, h1, h2, ih']

/-- Filtering a row list with one invalid value inserted before row `r`. -/
theorem filter_map_range_insert (f : Nat → Nat) (x r : Nat) (hx : isNote x = false) :
    ∀ n, r ≤ n →
      ((List.range (n + 1)).map fun i =>
          if i < r then f i else if i = r then x else f (i - 1)).filter isNote =
        ((List.range n).map f).filter isNote := by
  intro n
  induction n with
  | zero =>
    intro hr
    have : r = 0 := by omega
    subst this
    simp [hx]
  | succ n ih =>
    intro hr
    rw [List.range_succ, List.map_append, List.filter_append]
    by_cases hrn : r = n + 1
    · subst hrn
      have h1 : ((List.range (n + 1)).map fun i =>
          if i < n + 1 then f i else if i = n + 1 then x else f (i - 1)) =
          (List.range (n + 1)).map f := by
        apply List.map_congr_left
        intro i hi
        have := List.mem_range.1 hi
        simp [this]
      rw [h1]
      simp [hx]
    · have hle : r ≤ n := by omega
      rw [ih hle]
      have h2 : ¬ (n + 1 < r) := by omega
      have h3 : ¬ (n + 1 = r) := fun h => hrn h.symm
      conv_rhs => rw [List.range_succ, List.map_append, List.filter_append]
      simp [h2, h3]

theorem validNotes_setCell (mod : OpenmptModule) (p : Int) (r c v : Nat)
    (hold : isNote (mod.get_pattern_row_channel_command p r c command_note % 256) = false)
    (hnew : isNote (v % 256) = false) (s c' : Nat) :
    validNotes (setCell mod p r c v) s c' = validNotes mod s c' := by
  unfold validNotes cells
  simp only [setCell]
  generalize List.range (mod.get_num_orders s) = L
  induction L with
  | nil => rfl
  | cons o os ih =>
    simp only [List.flatMap_cons, List.filter_append, ih]
    congr 1
    apply filter_map_congr_invalid
    intro x _
    by_cases hc : mod.get_order_pattern (↑s) o = p ∧ x = r ∧ c' = c
    · obtain ⟨h1, h2, h3⟩ := hc
      subst h1 h2 h3
      right
      simp [hold, hnew]
    · left
      simp [hc]

theorem validNotes_insertRow (mod : OpenmptModule) (p : Int) (r : Nat) (fill : Nat → Nat)
    (hr : r ≤ mod.get_pattern_num_rows p) (hfill : ∀ c, isNote (fill c % 256) = false)
    (s c : Nat) :
    validNotes (insertRow mod p r fill) s c = validNotes mod s c := by
  unfold validNotes cells
  simp only [insertRow]
  generalize List.range (mod.get_num_orders s) = L
  induction L with
  | nil => rfl
  | cons o os ih =>
    simp only [List.flatMap_cons, List.filter_append, ih]
    congr 1
    by_cases hp : mod.get_order_pattern (↑s) o = p
    · simp only [hp, if_true]
      have := filter_map_range_insert
        (fun i => mod.get_pattern_row_channel_command p i c command_note % 256) (fill c % 256) r
        (hfill c) (mod.get_pattern_num_rows p) hr
      rw [← this]
      congr 1
      apply List.map_congr_left
      intro i _
      by_cases h1 : i < r
      · simp [h1]
      · by_cases h2 : i = r
        · simp [h2]
        · simp [h1, h2]
    · simp [hp]

theorem traversals_congr (m1 m2 : OpenmptModule)
    (hs : m1.get_num_subsongs = m2.get_num_subsongs)
    (hc : m1.get_num_channels = m2.get_num_channels)
    (h : ∀ s c, validNotes m1 s c = validNotes m2 s c) :
    traversals m1 = traversals m2 := by
  unfold traversals
  rw [hs, hc]
  simp [h]


/-! ## The add/update state machine -/

theorem PrepareQuery_unreadable (w : World) (db : List Row) (path : String) (q : Query)
    (hr : w.readAll path = none) : PrepareQuery w db path q = (.IOError, db) := by
  simp [PrepareQuery, hr]

theorem PrepareQuery_unparsable (w : World) (db : List Row) (path : String) (q : Query)
    (content : List Nat) (hr : w.readAll path = some content) (hl : w.load content = none) :
    PrepareQuery w db path q = (.NotAdded, db) := by
  simp [PrepareQuery, hr, hl]

/-- The digest comparison of `PrepareQuery`. -/
theorem PrepareQuery_loaded (w : World) (db : List Row) (path : String) (q : Query)
    (content : List Nat) (mod : OpenmptModule) (hr : w.readAll path = some content)
    (hl : w.load content = some mod) :
    PrepareQuery w db path q =
      if (match selectExec db (w.fromNativeSeparators path) with
          | some row => decide (row.hash = w.sha512Base64 content)
          | none => false) = true then (.NoChange, db)
      else match q.exec db (boundRow w path content mod) with
        | none => (.NotAdded, db)
        | some db' => (.Added, db') := by
  simp [PrepareQuery, hr, hl]

theorem PrepareQuery_ne_Updated (w : World) (db : List Row) (path : String) (q : Query) :
    (PrepareQuery w db path q).1 ≠ .Updated := by
  cases hr : w.readAll path with
  | none => simp [PrepareQuery_unreadable w db path q hr]
  | some content =>
    cases hl : w.load content with
    | none => simp [PrepareQuery_unparsable w db path q content hr hl]
    | some mod =>
      rw [PrepareQuery_loaded w db path q content mod hr hl]
      split
      · simp
      · cases q.exec db (boundRow w path content mod) <;> simp

theorem PrepareQuery_store (w : World) (db : List Row) (path : String) (q : Query)
    (h : (PrepareQuery w db path q).1 ≠ .Added) : (PrepareQuery w db path q).2 = db := by
  cases hr : w.readAll path with
  | none => simp [PrepareQuery_unreadable w db path q hr]
  | some content =>
    cases hl : w.load content with
    | none => simp [PrepareQuery_unparsable w db path q content hr hl]
    | some mod =>
      rw [PrepareQuery_loaded w db path q content mod hr hl] at h ⊢
      split
      · rfl
      · rename_i hsame
        rw [if_neg hsame] at h
        cases he : q.exec db (boundRow w path content mod) with
        | none => rfl
        | some db' => simp [he] at h

theorem AddModule_store_of_ne (w : World) (db : List Row) (path : String)
    (h1 : (AddModule w db path).1 ≠ .Added) (h2 : (AddModule w db path).1 ≠ .Updated) :
    (AddModule w db path).2 = db := by
  unfold AddModule at h1 h2 ⊢
  simp only [] at h1 h2 ⊢
  by_cases hres : (PrepareQuery w db path .insertQuery).1 = .NotAdded
  · have hstore := PrepareQuery_store w db path .insertQuery (by simp [hres])
    simp only [hres, ne_eq, not_true_eq_false, if_false, hstore] at h1 h2 ⊢
    unfold UpdateModule at h1 h2 ⊢
    simp only [] at h1 h2 ⊢
    by_cases hupd : (PrepareQuery w db path (.updateQuery path)).1 = .Added
    · simp [hupd] at h2
    · exact PrepareQuery_store w db path _ hupd
  · simp only [ne_eq, hres, not_false_eq_true, if_true] at h1 h2 ⊢
    exact PrepareQuery_store w db path _ h1


/-! ## One step of the maintenance sweep -/

/-- The row written by `updateQuery` over `x`. -/
theorem updateExec_cases (db : List Row) (r : Row) (f : String) :
    updateExec db r f = none ∨ ((∀ x ∈ db, x.filename ≠ f) ∧ updateExec db r f = some db) ∨
      updateExec db r f = some (db.map fun x =>
        if x.filename = f then { r with personal_comments := x.personal_comments } else x) := by
  unfold updateExec
  simp only []
  by_cases hhit : (db.filter fun x => decide (x.filename = f)).isEmpty = true
  · right; left
    refine ⟨?_, by simp [hhit]⟩
    intro x hx hxf
    have : db.filter (fun x => decide (x.filename = f)) = [] := List.isEmpty_iff.1 hhit
    have hmem : x ∈ db.filter (fun x => decide (x.filename = f)) :=
      List.mem_filter.2 ⟨hx, by simp [hxf]⟩
    rw [this] at hmem
    simp at hmem
  · by_cases hcol : (decide (1 < (db.filter fun x => decide (x.filename = f)).length) ||
        (db.filter fun x => !decide (x.filename = f)).any fun x =>
          decide (x.hash = r.hash) || decide (x.filename = r.filename)) = true
    · left; rw [if_neg hhit, if_pos hcol]
    · right; right
      rw [if_neg hhit, if_neg hcol]

theorem UpdateModule_cases (w : World) (db : List Row) (f : String)
    (hf : w.fromNativeSeparators f = f) :
    (scannable w f = false ∧
        ((UpdateModule w db f).1 = .IOError ∨ (UpdateModule w db f).1 = .NotAdded) ∧
        (UpdateModule w db f).2 = db) ∨
      ∃ content mod, w.readAll f = some content ∧ w.load content = some mod ∧
        ((∃ r0, selectExec db f = some r0 ∧ r0.hash = w.sha512Base64 content ∧
            UpdateModule w db f = (.NoChange, db)) ∨
          UpdateModule w db f = (.NotAdded, db) ∨
          ((∀ x ∈ db, x.filename ≠ f) ∧ UpdateModule w db f = (.Updated, db)) ∨
          UpdateModule w db f = (.Updated, db.map fun x =>
            if x.filename = f then
              { boundRow w f content mod with personal_comments := x.personal_comments }
            else x)) := by
  unfold UpdateModule
  simp only []
  cases hr : w.readAll f with
  | none =>
    left
    simp [PrepareQuery_unreadable w db f _ hr, scannable, hr]
  | some content =>
    cases hl : w.load content with
    | none =>
      left
      simp [PrepareQuery_unparsable w db f _ content hr hl, scannable, hr, hl]
    | some mod =>
      right
      refine ⟨content, mod, rfl, hl, ?_⟩
      rw [PrepareQuery_loaded w db f _ content mod hr hl, hf]
      cases hsel : selectExec db f with
      | some r0 =>
        by_cases hh : r0.hash = w.sha512Base64 content
        · left
          exact ⟨r0, rfl, hh, by simp [hh]⟩
        · right
          simp only [hh, decide_False, Bool.false_eq_true, if_false, Query.exec]
          rcases updateExec_cases db (boundRow w f content mod) f with h | ⟨h1, h2⟩ | h
          · left; simp [h]
          · right; left; exact ⟨h1, by simp [h2]⟩
          · right; right; simp [h]
      | none =>
        right
        simp only [Bool.false_eq_true, if_false, Query.exec]
        rcases updateExec_cases db (boundRow w f content mod) f with h | ⟨h1, h2⟩ | h
        · left; simp [h]
        · right; left; exact ⟨h1, by simp [h2]⟩
        · right; right; simp [h]


theorem maintainStep_removed (w : World) (st : MaintainState) (f : String)
    (h : (UpdateModule w st.db f).1 = .IOError ∨ (UpdateModule w st.db f).1 = .NotAdded) :
    (maintainStep w st f).db = RemoveModule w (UpdateModule w st.db f).2 f ∧
      (maintainStep w st f).removedFiles = st.removedFiles + 1 := by
  unfold maintainStep
  rcases h with h | h <;> simp [h]

theorem maintainStep_kept (w : World) (st : MaintainState) (f : String)
    (h : (UpdateModule w st.db f).1 = .Updated ∨ (UpdateModule w st.db f).1 = .NoChange) :
    (maintainStep w st f).db = (UpdateModule w st.db f).2 ∧
      (maintainStep w st f).removedFiles = st.removedFiles := by
  unfold maintainStep
  rcases h with h | h <;> simp [h]

/-- Two rows of a table without repeated file names that share a file name are one row. -/
theorem eq_of_filename_eq (db : List Row) (hnodup : (db.map fun x => x.filename).Nodup)
    (a b : Row) (ha : a ∈ db) (hb : b ∈ db) (h : a.filename = b.filename) : a = b :=
  List.inj_on_of_nodup_map hnodup ha hb h

theorem selectExec_some (db : List Row) (f : String) (r : Row) (h : selectExec db f = some r) :
    r ∈ db ∧ r.filename = f := by
  unfold selectExec at h
  exact ⟨List.mem_of_find?_eq_some h, by simpa using List.find?_some h⟩

theorem SweepInv_remove (w : World) (db : List Row) (f : String) (L : List String)
    (h : SweepInv w db (f :: L)) : SweepInv w (removeExec db f) L := by
  obtain ⟨h1, h2, h3⟩ := h
  refine ⟨?_, ?_, ?_⟩
  · exact h1.sublist (List.Sublist.map _ (List.filter_sublist _))
  · intro r hr
    exact h2 r (List.mem_of_mem_filter hr)
  · intro r hr
    have hmem := List.mem_filter.1 hr
    have hne : r.filename ≠ f := by simpa using hmem.2
    rcases h3 r hmem.1 with h | h
    · rcases List.mem_cons.1 h with h | h
      · exact absurd h hne
      · exact Or.inl h
    · exact Or.inr h

theorem SweepInv_update (w : World) (db : List Row) (f : String) (L : List String)
    (content : List Nat) (mod : OpenmptModule) (hf : w.fromNativeSeparators f = f)
    (hr : w.readAll f = some content) (hl : w.load content = some mod)
    (h : SweepInv w db (f :: L)) :
    SweepInv w (db.map fun x =>
      if x.filename = f then
        { boundRow w f content mod with personal_comments := x.personal_comments }
      else x) L := by
  obtain ⟨h1, h2, h3⟩ := h
  have hname : ∀ x : Row,
      (if x.filename = f then
        { boundRow w f content mod with personal_comments := x.personal_comments }
      else x).filename = x.filename := by
    intro x
    by_cases hx : x.filename = f
    · simp [hx, boundRow, hf]
    · simp [hx]
  refine ⟨?_, ?_, ?_⟩
  · rw [List.map_map]
    have : ((fun x : Row => x.filename) ∘ fun x : Row =>
        if x.filename = f then
          { boundRow w f content mod with personal_comments := x.personal_comments }
        else x) = fun x => x.filename := by
      funext x
      exact hname x
    rw [this]
    exact h1
  · intro r hr'
    obtain ⟨x, hx, rfl⟩ := List.mem_map.1 hr'
    rw [hname x]
    exact h2 x hx
  · intro r hr'
    obtain ⟨x, hx, rfl⟩ := List.mem_map.1 hr'
    by_cases hxf : x.filename = f
    · right
      refine ⟨content, mod, ?_, hl, ?_⟩
      · rw [hname x, hxf]; exact hr
      · simp [hxf, boundRow]
    · simp only [hxf, if_false]
      rcases h3 x hx with h | h
      · rcases List.mem_cons.1 h with h | h
        · exact absurd h hxf
        · exact Or.inl h
      · exact Or.inr h

theorem SweepInv_step (w : World) (st : MaintainState) (f : String) (L : List String)
    (hf : w.fromNativeSeparators f = f) (h : SweepInv w st.db (f :: L)) :
    SweepInv w (maintainStep w st f).db L := by
  rcases UpdateModule_cases w st.db f hf with ⟨_, hres, hdb⟩ | ⟨content, mod, hr, hl, hc⟩
  · rw [(maintainStep_removed w st f hres).1, hdb, RemoveModule, hf]
    exact SweepInv_remove w st.db f L h
  · rcases hc with ⟨r0, hsel, hhash, hu⟩ | hu | ⟨hno, hu⟩ | hu
    · rw [(maintainStep_kept w st f (by simp [hu])).1, hu]
      obtain ⟨h1, h2, h3⟩ := h
      obtain ⟨hr0, hr0f⟩ := selectExec_some st.db f r0 hsel
      refine ⟨h1, h2, ?_⟩
      intro r hrmem
      by_cases hrf : r.filename = f
      · right
        have : r = r0 := eq_of_filename_eq st.db h1 r r0 hrmem hr0 (by rw [hrf, hr0f])
        subst this
        exact ⟨content, mod, by rw [hrf]; exact hr, hl, hhash⟩
      · rcases h3 r hrmem with h | h
        · rcases List.mem_cons.1 h with h | h
          · exact absurd h hrf
          · exact Or.inl h
        · exact Or.inr h
    · rw [(maintainStep_removed w st f (by simp [hu])).1, hu, RemoveModule, hf]
      exact SweepInv_remove w st.db f L h
    · rw [(maintainStep_kept w st f (by simp [hu])).1, hu]
      obtain ⟨h1, h2, h3⟩ := h
      refine ⟨h1, h2, ?_⟩
      intro r hrmem
      rcases h3 r hrmem with h | h
      · rcases List.mem_cons.1 h with h | h
        · exact absurd h (hno r hrmem)
        · exact Or.inl h
      · exact Or.inr h
    · rw [(maintainStep_kept w st f (by simp [hu])).1, hu]
      exact SweepInv_update w st.db f L content mod hf hr hl h

theorem SweepInv_foldl (w : World) (L : List String) (st : MaintainState)
    (hL : ∀ f ∈ L, w.fromNativeSeparators f = f) (h : SweepInv w st.db L) :
    SweepInv w (L.foldl (maintainStep w) st).db [] := by
  induction L generalizing st with
  | nil => exact h
  | cons f fs ih =>
    rw [List.foldl_cons]
    exact ih _ (fun g hg => hL g (List.mem_cons_of_mem _ hg))
      (SweepInv_step w st f fs (hL f (List.mem_cons_self _ _)) h)

/-- A sweep over a table whose rows are all up to date changes nothing and removes nothing. -/
theorem foldl_maintainStep_upToDate (w : World) (db : List Row) (L : List String)
    (st : MaintainState) (hst : st.db = db)
    (hnorm : ∀ r ∈ db, w.fromNativeSeparators r.filename = r.filename)
    (hup : ∀ r ∈ db, UpToDate w r) (hL : ∀ f ∈ L, ∃ r ∈ db, r.filename = f) :
    (L.foldl (maintainStep w) st).db = db ∧
      (L.foldl (maintainStep w) st).removedFiles = st.removedFiles := by
  induction L generalizing st with
  | nil => exact ⟨hst, rfl⟩
  | cons f fs ih =>
    rw [List.foldl_cons]
    obtain ⟨r, hr, hrf⟩ := hL f (List.mem_cons_self _ _)
    have hf : w.fromNativeSeparators f = f := by rw [← hrf]; exact hnorm r hr
    have hstep : (UpdateModule w st.db f) = (.NoChange, st.db) := by
      cases hsel : selectExec st.db f with
      | none =>
        exfalso
        unfold selectExec at hsel
        have := List.find?_eq_none.1 hsel r (hst ▸ hr)
        simp [hrf] at this
      | some r0 =>
        obtain ⟨hr0, hr0f⟩ := selectExec_some st.db f r0 hsel
        obtain ⟨content, mod, h1, h2, h3⟩ := hup r0 (hst ▸ hr0)
        rw [hr0f] at h1
        unfold UpdateModule
        simp only []
        rw [PrepareQuery_loaded w st.db f _ content mod h1 h2, hf, hsel]
        simp [h3]
    have hk := maintainStep_kept w st f (by simp [hstep])
    have := ih (maintainStep w st f) (by rw [hk.1, hstep]; exact hst)
      (fun g hg => hL g (List.mem_cons_of_mem _ hg))
    rw [this.1, this.2, hk.2]
    exact ⟨rfl, rfl⟩


/-! ## Adding a file -/

theorem AddModule_same (w : World) (db : List Row) (path : String) (content : List Nat)
    (mod : OpenmptModule) (hr : w.readAll path = some content) (hl : w.load content = some mod)
    (r0 : Row) (hsel : selectExec db (w.fromNativeSeparators path) = some r0)
    (hh : r0.hash = w.sha512Base64 content) : AddModule w db path = (.NoChange, db) := by
  unfold AddModule
  simp only []
  rw [PrepareQuery_loaded w db path _ content mod hr hl, hsel]
  simp [hh]

theorem AddModule_insert (w : World) (db db' : List Row) (path : String) (content : List Nat)
    (mod : OpenmptModule) (hr : w.readAll path = some content) (hl : w.load content = some mod)
    (hsel : selectExec db (w.fromNativeSeparators path) = none)
    (hins : insertExec db (boundRow w path content mod) = some db') :
    AddModule w db path = (.Added, db') := by
  unfold AddModule
  simp only []
  rw [PrepareQuery_loaded w db path _ content mod hr hl, hsel]
  simp [Query.exec, hins]

theorem length_le_one_of_nodup_const (l : List String) (f : String) (hnodup : l.Nodup)
    (hall : ∀ y ∈ l, y = f) : l.length ≤ 1 := by
  match l, hnodup, hall with
  | [], _, _ => simp
  | [_], _, _ => simp
  | a :: b :: rest, hnodup, hall =>
    have ha : a = f := hall a (by simp)
    have hb : b = f := hall b (by simp)
    subst ha hb
    simp at hnodup

/-- The update of a changed file whose new digest no other row holds: both entry points
report `Updated`, and the row of the file gets every bound column while keeping its personal
comment; the other rows stay as they are. -/
theorem UpdateModule_changed (w : World) (db : List Row) (f : String) (content : List Nat)
    (mod : OpenmptModule) (r0 : Row) (hf : w.fromNativeSeparators f = f)
    (hnodup : (db.map fun x => x.filename).Nodup)
    (hr : w.readAll f = some content) (hl : w.load content = some mod)
    (hsel : selectExec db f = some r0) (hdiff : r0.hash ≠ w.sha512Base64 content)
    (hfree : ∀ x ∈ db, x.filename ≠ f → x.hash ≠ w.sha512Base64 content) :
    UpdateModule w db f = (.Updated, db.map fun x =>
        if x.filename = f then
          { boundRow w f content mod with personal_comments := x.personal_comments }
        else x) ∧
      AddModule w db f = UpdateModule w db f := by
  obtain ⟨hr0, hr0f⟩ := selectExec_some db f r0 hsel
  have hupd : updateExec db (boundRow w f content mod) f = some (db.map fun x =>
      if x.filename = f then
        { boundRow w f content mod with personal_comments := x.personal_comments }
      else x) := by
    unfold updateExec
    simp only []
    have hhit : ¬ (db.filter fun x => decide (x.filename = f)).isEmpty = true := by
      intro h
      have h0 : db.filter (fun x => decide (x.filename = f)) = [] := List.isEmpty_iff.1 h
      have hm : r0 ∈ db.filter (fun x => decide (x.filename = f)) :=
        List.mem_filter.2 ⟨hr0, by simp [hr0f]⟩
      rw [h0] at hm
      simp at hm
    have hone : ¬ 1 < (db.filter fun x => decide (x.filename = f)).length := by
      have hsub : ((db.filter fun x => decide (x.filename = f)).map fun x => x.filename).Nodup :=
        hnodup.sublist (List.Sublist.map _ (List.filter_sublist _))
      have hall : ∀ y ∈ (db.filter fun x => decide (x.filename = f)).map fun x => x.filename,
          y = f := by
        intro y hy
        obtain ⟨x, hx, rfl⟩ := List.mem_map.1 hy
        simpa using (List.mem_filter.1 hx).2
      have := length_le_one_of_nodup_const _ f hsub hall
      simp only [List.length_map] at this
      omega
    have hcol : ¬ ((db.filter fun x => !decide (x.filename = f)).any fun x =>
        decide (x.hash = (boundRow w f content mod).hash) ||
          decide (x.filename = (boundRow w f content mod).filename)) = true := by
      intro h
      obtain ⟨x, hx, hc⟩ := List.any_eq_true.1 h
      obtain ⟨hxdb, hxf⟩ := List.mem_filter.1 hx
      have hxf' : x.filename ≠ f := by simpa using hxf
      simp only [boundRow, hf, Bool.or_eq_true, decide_eq_true_eq] at hc
      rcases hc with hc | hc
      · exact hfree x hxdb hxf' hc
      · exact hxf' hc
    rw [if_neg hhit, if_neg (by simp [hone, hcol])]
  have hU : UpdateModule w db f = (.Updated, db.map fun x =>
      if x.filename = f then
        { boundRow w f content mod with personal_comments := x.personal_comments }
      else x) := by
    unfold UpdateModule
    simp only []
    rw [PrepareQuery_loaded w db f _ content mod hr hl, hf, hsel]
    simp [hdiff, Query.exec, hupd]
  refine ⟨hU, ?_⟩
  have hins : insertExec db (boundRow w f content mod) = none := by
    unfold insertExec
    rw [if_pos]
    exact List.any_eq_true.2 ⟨r0, hr0, by simp [boundRow, hf, hr0f]⟩
  unfold AddModule
  simp only []
  rw [PrepareQuery_loaded w db f _ content mod hr hl, hf, hsel]
  simp [hdiff, Query.exec, hins]

/-! ## Positions of the traversals -/

theorem length_flatMap_range_map {α : Type} (f : Nat → Nat → α) (C : Nat) (n : Nat) :
    ((List.range n).flatMap fun s => (List.range C).map (f s)).length = n * C := by
  induction n with
  | zero => simp
  | succ n ih =>
    rw [List.range_succ, List.flatMap_append, List.length_append, ih]
    simp [Nat.succ_mul]

theorem getElem?_flatMap_range_map {α : Type} (f : Nat → Nat → α) (C : Nat) (n s c : Nat)
    (hs : s < n) (hc : c < C) :
    ((List.range n).flatMap fun s => (List.range C).map (f s))[s * C + c]? = some (f s c) := by
  induction n with
  | zero => omega
  | succ n ih =>
    rw [List.range_succ, List.flatMap_append]
    by_cases hsn : s < n
    · have hlt : s * C + c < ((List.range n).flatMap fun s => (List.range C).map (f s)).length := by
        rw [length_flatMap_range_map]
        calc s * C + c < s * C + C := by omega
          _ = (s + 1) * C := by rw [Nat.succ_mul]
          _ ≤ n * C := Nat.mul_le_mul_right _ hsn
      rw [List.getElem?_append_left hlt]
      exact ih hsn
    · have hsn' : s = n := by omega
      subst hsn'
      have hle : ((List.range s).flatMap fun s => (List.range C).map (f s)).length ≤ s * C + c := by
        rw [length_flatMap_range_map]
        omega
      rw [List.getElem?_append_right hle, length_flatMap_range_map]
      simp [hc]

theorem traversals_length (mod : OpenmptModule) :
    (traversals mod).length = mod.get_num_subsongs * mod.get_num_channels :=
  length_flatMap_range_map _ _ _

theorem traversals_getElem? (mod : OpenmptModule) (s c : Nat) (hs : s < mod.get_num_subsongs)
    (hc : c < mod.get_num_channels) :
    (traversals mod)[s * mod.get_num_channels + c]? = some (validNotes mod s c) :=
  getElem?_flatMap_range_map (fun s c => validNotes mod s c) _ _ s c hs hc

theorem segments_getElem? (last : Int) (V : List (List Nat)) (j : Nat) :
    (segments last V)[j]? = V[j]?.map fun v =>
      toByte (-(lastAfter last (V.take j).flatten)) ::
        deltaEncode (lastAfter last (V.take j).flatten) v := by
  induction V generalizing last j with
  | nil => simp [segments]
  | cons v vs ih =>
    cases j with
    | zero => simp [segments, lastAfter]
    | succ j => simp [segments, ih, lastAfter_append]

theorem segments_tail_flatten (last : Int) (V : List (List Nat)) :
    ((segments last V).map List.tail).flatten = deltaEncode last V.flatten := by
  induction V generalizing last with
  | nil => simp [segments, deltaEncode]
  | cons v vs ih => simp [segments, ih, deltaEncode_append]

theorem segments_flatten_length (last : Int) (V : List (List Nat)) :
    (segments last V).flatten.length = V.length + V.flatten.length := by
  induction V generalizing last with
  | nil => simp [segments]
  | cons v vs ih =>
    simp only [segments, List.flatten_cons, List.length_append, List.length_cons, ih,
      deltaEncode_length]
    omega

theorem words_eq_nil_iff (s : List Char) : words s = [] ↔ s.all QChar_isSpace = true := by
  unfold words
  induction s with
  | nil => simp
  | cons a as ih =>
    rw [List.splitOnP_cons]
    by_cases h : QChar_isSpace a = true
    · simp only [h, if_true, List.all_cons, Bool.true_and]
      rw [← ih]
      simp [List.filter_cons]
    · simp only [h, if_false, List.all_cons]
      have hne := List.splitOnP_ne_nil QChar_isSpace as
      cases hs : as.splitOnP QChar_isSpace with
      | nil => exact absurd hs hne
      | cons hd tl => simp [List.modifyHead, List.filter_cons]

theorem QString_simplified_eq_nil_iff_all (s : List Char) :
    QString_simplified s = [] ↔ s.all QChar_isSpace = true :=
  (QString_simplified_eq_nil_iff s).trans (words_eq_nil_iff s)

theorem map_toInt_of_decimalValue (ws : List (List Char)) (zs : List Int)
    (htok : ws.map decimalValue = zs.map some)
    (hrange : ∀ z ∈ zs, -2147483648 ≤ z ∧ z ≤ 2147483647) :
    (ws.map fun note => toByte (toInt8 (QString_toInt note))) =
      zs.map fun z => (z % 256).toNat := by
  induction ws generalizing zs with
  | nil =>
    cases zs with
    | nil => rfl
    | cons z zs => simp at htok
  | cons t ts ih =>
    cases zs with
    | nil => simp at htok
    | cons z zs =>
      simp only [List.map_cons, List.cons.injEq] at htok
      have hz := hrange z (List.mem_cons_self _ _)
      have hts := ih zs htok.2 fun y hy => hrange y (List.mem_cons_of_mem _ hy)
      simp only [List.map_cons, hts, List.cons.injEq, and_true]
      rw [toByte_toInt8]
      simp [QString_toInt, htok.1, hz]

/-! ## The claims on the library index -/

/-- C1, evaluated on the code: `a.mod` and `b.mod` hold the same bytes.  Adding `a.mod` to the
empty table inserts a row; adding `b.mod` then reports `Updated`, and the table still holds
the single row of `a.mod`: the insert of the second row fails on the primary key `hash`, and
the update that follows matches no row.  The duplicate query returns nothing. -/
theorem identical_bytes_second_file_not_stored :
    sampleWorld.readAll "a.mod" = sampleWorld.readAll "b.mod" ∧
      (AddModule sampleWorld [] "a.mod").1 = .Added ∧
      (AddModule sampleWorld (AddModule sampleWorld [] "a.mod").2 "b.mod").1 = .Updated ∧
      ((AddModule sampleWorld (AddModule sampleWorld [] "a.mod").2 "b.mod").2.map
        fun r => r.filename) = ["a.mod"] ∧
      selectExec (AddModule sampleWorld (AddModule sampleWorld [] "a.mod").2 "b.mod").2
        "b.mod" = none ∧
      OnFindDupes (AddModule sampleWorld (AddModule sampleWorld [] "a.mod").2 "b.mod").2 = [] := by
  decide

/-- C2 as stated fails: with a row for the file name that carries another digest, the first
`AddModule` of a readable, parsable file reports `Updated`. -/
theorem readd_over_stale_row_reports_updated :
    ¬ ∀ (w : World) (db : List Row) (path : String) (content : List Nat) (mod : OpenmptModule),
      w.readAll path = some content → w.load content = some mod →
        ((AddModule w db path).1 = .Added ∨ (AddModule w db path).1 = .NoChange) ∧
          (AddModule w (AddModule w db path).2 path).1 = .NoChange := by
  intro h
  have := (h sampleWorld [sampleRow "old" "a.mod"] "a.mod" [77, 46, 75, 46] sampleModule
    rfl rfl).1
  revert this
  decide

/-- C2, amended: when the table holds no row for the file name with another digest than the
file's, and no row for another file name with the file's digest, the first `AddModule` of a
readable, parsable file reports `Added` or `NoChange`, the second reports `NoChange` (so
neither reports `Updated`), and afterwards the row selected by the file name carries the
digest of the file's bytes. -/
theorem readd_unchanged_file (w : World) (db : List Row) (path : String) (content : List Nat)
    (mod : OpenmptModule) (hr : w.readAll path = some content) (hl : w.load content = some mod)
    (hfile : ∀ r ∈ db, r.filename = w.fromNativeSeparators path →
      r.hash = w.sha512Base64 content)
    (hhash : ∀ r ∈ db, r.hash = w.sha512Base64 content →
      r.filename = w.fromNativeSeparators path) :
    ((AddModule w db path).1 = .Added ∨ (AddModule w db path).1 = .NoChange) ∧
      (AddModule w (AddModule w db path).2 path).1 = .NoChange ∧
      ∃ r, selectExec (AddModule w (AddModule w db path).2 path).2
          (w.fromNativeSeparators path) = some r ∧ r.hash = w.sha512Base64 content := by
  cases hsel : selectExec db (w.fromNativeSeparators path) with
  | some r0 =>
    obtain ⟨hr0, hr0f⟩ := selectExec_some db _ r0 hsel
    have hh := hfile r0 hr0 hr0f
    have h1 := AddModule_same w db path content mod hr hl r0 hsel hh
    rw [h1]
    simp only [h1]
    exact ⟨Or.inr trivial, trivial, r0, hsel, hh⟩
  | none =>
    have hnone : ∀ x ∈ db, x.filename ≠ w.fromNativeSeparators path := by
      intro x hx
      unfold selectExec at hsel
      simpa using List.find?_eq_none.1 hsel x hx
    have hins : insertExec db (boundRow w path content mod) =
        some (db ++ [{ boundRow w path content mod with personal_comments := none }]) := by
      unfold insertExec
      rw [if_neg]
      intro hany
      obtain ⟨x, hx, hcol⟩ := List.any_eq_true.1 hany
      simp only [boundRow, Bool.or_eq_true, decide_eq_true_eq] at hcol
      rcases hcol with hcol | hcol
      · exact hnone x hx (hhash x hx hcol)
      · exact hnone x hx hcol
    have h1 := AddModule_insert w db _ path content mod hr hl hsel hins
    have hsel2 : selectExec (db ++ [{ boundRow w path content mod with
        personal_comments := none }]) (w.fromNativeSeparators path) =
        some { boundRow w path content mod with personal_comments := none } := by
      unfold selectExec at hsel ⊢
      rw [List.find?_append, hsel]
      simp [boundRow]
    have h2 := AddModule_same w _ path content mod hr hl _ hsel2 (by simp [boundRow])
    rw [h1]
    simp only [h2]
    exact ⟨Or.inl trivial, trivial, _, hsel2, by simp [boundRow]⟩

/-- C2, amended, at a concrete table: `a.mod` is added to a table that holds another file. -/
theorem readd_unchanged_file_witness :
    ((AddModule sampleWorld [sampleRow "zz" "q.mod"] "a.mod").1 = .Added ∨
        (AddModule sampleWorld [sampleRow "zz" "q.mod"] "a.mod").1 = .NoChange) ∧
      (AddModule sampleWorld (AddModule sampleWorld [sampleRow "zz" "q.mod"] "a.mod").2
        "a.mod").1 = .NoChange ∧
      ∃ r, selectExec (AddModule sampleWorld
          (AddModule sampleWorld [sampleRow "zz" "q.mod"] "a.mod").2 "a.mod").2
          (sampleWorld.fromNativeSeparators "a.mod") = some r ∧
        r.hash = sampleWorld.sha512Base64 [77, 46, 75, 46] :=
  readd_unchanged_file sampleWorld [sampleRow "zz" "q.mod"] "a.mod" [77, 46, 75, 46]
    sampleModule rfl rfl (by decide) (by decide)

/-- C3, evaluated on the code: the table holds a row for `a.mod` with the digest `old` and a
row for `b.mod` with the digest of the bytes now found in `a.mod`.  `AddModule` and
`UpdateModule` on `a.mod` both report `NotAdded` and leave the table as it was: the update
fails on the primary key `hash`. -/
theorem update_to_held_digest_not_added :
    (selectExec [sampleRow "old" "a.mod", sampleRow "M.K." "b.mod"] "a.mod").map
        (fun r => decide (r.hash = sampleWorld.sha512Base64 [77, 46, 75, 46])) = some false ∧
      sampleWorld.readAll "a.mod" = some [77, 46, 75, 46] ∧
      AddModule sampleWorld [sampleRow "old" "a.mod", sampleRow "M.K." "b.mod"] "a.mod" =
        (.NotAdded, [sampleRow "old" "a.mod", sampleRow "M.K." "b.mod"]) ∧
      UpdateModule sampleWorld [sampleRow "old" "a.mod", sampleRow "M.K." "b.mod"] "a.mod" =
        (.NotAdded, [sampleRow "old" "a.mod", sampleRow "M.K." "b.mod"]) := by
  decide

/-- C4: whenever `AddModule` reports `IOError`, `NotAdded` or `NoChange`, the table after the
call is the table before it. -/
theorem failed_add_leaves_store (w : World) (db : List Row) (path : String)
    (h : (AddModule w db path).1 = .IOError ∨ (AddModule w db path).1 = .NotAdded ∨
      (AddModule w db path).1 = .NoChange) :
    (AddModule w db path).2 = db := by
  apply AddModule_store_of_ne
  · rcases h with h | h | h <;> simp [h]
  · rcases h with h | h | h <;> simp [h]

/-- C4 at concrete inputs: a file that cannot be opened, a file that is no module, and a file
whose row carries its digest. -/
theorem failed_add_leaves_store_witness :
    ((AddModule sampleWorld [sampleRow "M.K." "a.mod"] "gone.mod").1 = .IOError ∧
        (AddModule sampleWorld [sampleRow "M.K." "a.mod"] "gone.mod").2 =
          [sampleRow "M.K." "a.mod"]) ∧
      ((AddModule sampleWorld [sampleRow "M.K." "a.mod"] "c.txt").1 = .NotAdded ∧
        (AddModule sampleWorld [sampleRow "M.K." "a.mod"] "c.txt").2 =
          [sampleRow "M.K." "a.mod"]) ∧
      ((AddModule sampleWorld [sampleRow "M.K." "a.mod"] "a.mod").1 = .NoChange ∧
        (AddModule sampleWorld [sampleRow "M.K." "a.mod"] "a.mod").2 =
          [sampleRow "M.K." "a.mod"]) :=
  ⟨⟨by decide, failed_add_leaves_store sampleWorld _ "gone.mod" (Or.inl (by decide))⟩,
    ⟨by decide, failed_add_leaves_store sampleWorld _ "c.txt" (Or.inr (Or.inl (by decide)))⟩,
    ⟨by decide, failed_add_leaves_store sampleWorld _ "a.mod" (Or.inr (Or.inr (by decide)))⟩⟩

/-- C5: on a table whose file names are not repeated and are stored in Qt's form, the sweep of
`OnMaintain` leaves no row whose file cannot be read or parsed, and a second sweep over the
same file system returns the same table and counts no removal. -/
theorem sweep_idempotent (w : World) (db : List Row)
    (hnodup : (db.map fun x => x.filename).Nodup)
    (hnorm : ∀ r ∈ db, w.fromNativeSeparators r.filename = r.filename) :
    (∀ r ∈ db, scannable w r.filename = false →
        ∀ r' ∈ (OnMaintain w db).db, r'.filename ≠ r.filename) ∧
      (OnMaintain w (OnMaintain w db).db).db = (OnMaintain w db).db ∧
      (OnMaintain w (OnMaintain w db).db).removedFiles = 0 := by
  have hinv : SweepInv w (OnMaintain w db).db [] := by
    unfold OnMaintain
    apply SweepInv_foldl
    · intro f hf
      obtain ⟨r, hr, rfl⟩ := List.mem_map.1 hf
      exact hnorm r hr
    · exact ⟨hnodup, hnorm, fun r hr => Or.inl (List.mem_map_of_mem _ hr)⟩
  obtain ⟨_, h2, h3⟩ := hinv
  have hup : ∀ r ∈ (OnMaintain w db).db, UpToDate w r := by
    intro r hr
    rcases h3 r hr with h | h
    · simp at h
    · exact h
  refine ⟨?_, ?_⟩
  · intro r _ hscan r' hr' heq
    obtain ⟨content, mod, hc, hm, _⟩ := hup r' hr'
    rw [heq] at hc
    simp [scannable, hc, hm] at hscan
  · have := foldl_maintainStep_upToDate w (OnMaintain w db).db
      ((OnMaintain w db).db.map fun x => x.filename)
      { db := (OnMaintain w db).db, files := 0, updatedFiles := 0, removedFiles := 0 } rfl h2 hup
      (fun f hf => by
        obtain ⟨r, hr, hrf⟩ := List.mem_map.1 hf
        exact ⟨r, hr, hrf⟩)
    exact this

/-- C5 at a concrete table: the file of the second row is gone, the first row is stale. -/
theorem sweep_idempotent_witness :
    (∀ r ∈ [sampleRow "old" "a.mod", sampleRow "x" "gone.mod"],
        scannable sampleWorld r.filename = false →
        ∀ r' ∈ (OnMaintain sampleWorld [sampleRow "old" "a.mod", sampleRow "x" "gone.mod"]).db,
          r'.filename ≠ r.filename) ∧
      (OnMaintain sampleWorld
        (OnMaintain sampleWorld [sampleRow "old" "a.mod", sampleRow "x" "gone.mod"]).db).db =
        (OnMaintain sampleWorld [sampleRow "old" "a.mod", sampleRow "x" "gone.mod"]).db ∧
      (OnMaintain sampleWorld
        (OnMaintain sampleWorld
          [sampleRow "old" "a.mod", sampleRow "x" "gone.mod"]).db).removedFiles = 0 :=
  sweep_idempotent sampleWorld [sampleRow "old" "a.mod", sampleRow "x" "gone.mod"]
    (by decide) (by decide)

/-! ## The claims on the encoder and the melody search -/

/-- C6: when the notes `ns` follow one another among the valid notes of a channel of a
subsong (only cells without a valid note lie between them), their successive differences
modulo 256 are a contiguous part of the output of `BuildNoteString`, whatever the first note
is; and the query `2 0` accepts the note data of every module in which some channel holds
three consecutive notes `n`, `n + 2`, `n + 2`. -/
theorem transposition_invariance (mod : OpenmptModule) (s c : Nat)
    (hs : s < mod.get_num_subsongs) (hc : c < mod.get_num_channels) :
    (∀ ns, ns <:+: validNotes mod s c → intervals ns <:+: BuildNoteString mod []) ∧
      (∀ n, [n, n + 2, n + 2] <:+: validNotes mod s c →
        melodyFilter (DoSearch_melody ['2', ' ', '0']) (BuildNoteString mod []) = true) := by
  have hmem : validNotes mod s c ∈ traversals mod :=
    List.getElem?_mem (traversals_getElem? mod s c hs hc)
  have key : ∀ ns, ns <:+: validNotes mod s c → intervals ns <:+: BuildNoteString mod [] := by
    intro ns hns
    obtain ⟨pre, post, hpp⟩ := hns
    obtain ⟨l, hl⟩ := infix_flatten_segments _ _ hmem 0
    rw [BuildNoteString_eq, List.nil_append]
    refine List.IsInfix.trans ?_ hl
    rw [← hpp]
    exact intervals_infix_deltaEncode l pre ns post
  refine ⟨key, ?_⟩
  intro n hn
  have h20 := key _ hn
  have hq : DoSearch_melody ['2', ' ', '0'] =
      { clauses := [0], melodyBytes := [[2, 0]], melodyCount := 1 } := by decide
  have hi : intervals [n, n + 2, n + 2] = [2, 0] := by
    simp [intervals, toByte]
  rw [hi] at h20
  rw [hq]
  simp [melodyFilter, INSTR_pos_iff, h20]

/-- C6 at a concrete module: the channel of `sampleModule` holds 60, 62, 62. -/
theorem transposition_invariance_witness :
    [60, 62, 62] <:+: validNotes sampleModule 0 0 ∧
      intervals [60, 62, 62] <:+: BuildNoteString sampleModule [] ∧
      melodyFilter (DoSearch_melody ['2', ' ', '0']) (BuildNoteString sampleModule []) = true :=
  ⟨by decide,
    (transposition_invariance sampleModule 0 0 (by decide) (by decide)).1 _ (by decide),
    (transposition_invariance sampleModule 0 0 (by decide) (by decide)).2 60 (by decide)⟩

/-- C7 as stated fails: the token `4294967297` is a decimal integer whose value is 1 modulo
256, and the byte compiled for it is 0, because `QString::toInt` fails outside the range of
`int`. -/
theorem typed_token_beyond_int_range :
    ¬ ∀ (phrase : List Char) (zs : List Int), '|' ∉ phrase → zs ≠ [] →
      (words phrase).map decimalValue = zs.map some →
      (DoSearch_melody phrase).melodyBytes = [zs.map fun z => (z % 256).toNat] := by
  intro h
  have := h "4294967297".toList [4294967297] (by decide) (by decide) (by decide)
  revert this
  decide

/-- C7, amended: for a phrase (no `|`) whose white-space-delimited tokens are decimal integers
`zs` within the range of a 32-bit `int`, the melody search compiles exactly one needle, with
one byte per token, the byte being the token's value modulo 256; so a second such phrase
whose values are congruent modulo 256 to those of the first compiles to the same needle. -/
theorem typed_phrase_bytes (phrase : List Char) (zs : List Int) (hbar : '|' ∉ phrase)
    (hne : zs ≠ []) (htok : (words phrase).map decimalValue = zs.map some)
    (hrange : ∀ z ∈ zs, -2147483648 ≤ z ∧ z ≤ 2147483647) :
    (DoSearch_melody phrase).melodyBytes = [zs.map fun z => (z % 256).toNat] ∧
      ∀ (phrase' : List Char) (zs' : List Int), '|' ∉ phrase' →
        (words phrase').map decimalValue = zs'.map some →
        (∀ z ∈ zs', -2147483648 ≤ z ∧ z ≤ 2147483647) →
        (zs'.map fun z => z % 256) = (zs.map fun z => z % 256) →
        (DoSearch_melody phrase').melodyBytes = (DoSearch_melody phrase).melodyBytes := by
  have main : ∀ (p : List Char) (ys : List Int), '|' ∉ p → ys ≠ [] →
      (words p).map decimalValue = ys.map some →
      (∀ z ∈ ys, -2147483648 ≤ z ∧ z ≤ 2147483647) →
      (DoSearch_melody p).melodyBytes = [ys.map fun z => (z % 256).toNat] := by
    intro p ys hp hys ht hr
    have hw : words p ≠ [] := by
      intro h0
      rw [h0] at ht
      cases ys with
      | nil => exact hys rfl
      | cons y ys => simp at ht
    have hs : QString_simplified p ≠ [] := fun h0 => hw ((QString_simplified_eq_nil_iff p).1 h0)
    rw [DoSearch_melody_bytes, QString_split_of_not_mem '|' p hp]
    simp only [List.filter_cons, hs, decide_False, Bool.not_false, if_true, List.filter_nil,
      List.map_cons, List.map_nil]
    rw [phraseBytes_eq p hw, map_toInt_of_decimalValue _ ys ht hr]
  refine ⟨main phrase zs hbar hne htok hrange, ?_⟩
  intro phrase' zs' hbar' htok' hrange' hcong
  have hne' : zs' ≠ [] := by
    intro h0
    rw [h0] at hcong
    cases zs with
    | nil => exact hne rfl
    | cons z zs => simp at hcong
  rw [main phrase zs hbar hne htok hrange, main phrase' zs' hbar' hne' htok' hrange']
  have : ∀ ys : List Int, (ys.map fun z => (z % 256).toNat) =
      (ys.map fun z => z % 256).map Int.toNat := by
    intro ys
    simp [List.map_map]
  rw [this zs, this zs', hcong]

/-- C7, amended, at the phrases `200` and `-56`: both compile to the one-byte needle 200. -/
theorem typed_phrase_bytes_witness :
    (DoSearch_melody ['2', '0', '0']).melodyBytes = [[200]] ∧
      (DoSearch_melody ['-', '5', '6']).melodyBytes =
        (DoSearch_melody ['2', '0', '0']).melodyBytes :=
  ⟨(typed_phrase_bytes ['2', '0', '0'] [200] (by decide) (by decide) (by decide)
      (by decide)).1,
    (typed_phrase_bytes ['2', '0', '0'] [200] (by decide) (by decide) (by decide)
      (by decide)).2 ['-', '5', '6'] [-56] (by decide) (by decide) (by decide) (by decide)⟩

/-- C8: the melody filter accepts a row exactly when, for every part of the melody text
between `|` that is not all white space, the bytes compiled for that part are a contiguous
part of the row's note data; the needles are the compiled bytes of exactly those parts, so an
empty or all-white-space part puts no condition on the row. -/
theorem melody_filter_iff (melodyText : List Char) (note_data : List Nat) :
    (melodyFilter (DoSearch_melody melodyText) note_data = true ↔
        ∀ phrase ∈ QString_split '|' melodyText, phrase.all QChar_isSpace = false →
          phraseBytes phrase <:+: note_data) ∧
      (DoSearch_melody melodyText).melodyBytes =
        ((QString_split '|' melodyText).filter fun phrase =>
          !phrase.all QChar_isSpace).map phraseBytes ∧
      ((∀ phrase ∈ QString_split '|' melodyText, phrase.all QChar_isSpace = true) →
        melodyFilter (DoSearch_melody melodyText) note_data = true) := by
  have hfilter : ((QString_split '|' melodyText).filter fun m =>
      !decide (QString_simplified m = [])) =
      (QString_split '|' melodyText).filter fun phrase => !phrase.all QChar_isSpace := by
    apply List.filter_congr
    intro m _
    by_cases h : m.all QChar_isSpace = true
    · simp [h, (QString_simplified_eq_nil_iff_all m).2 h]
    · have h' : ¬ QString_simplified m = [] := fun h0 =>
        h ((QString_simplified_eq_nil_iff_all m).1 h0)
      simp [h, h']
  have hbytes := DoSearch_melody_bytes melodyText
  rw [hfilter] at hbytes
  have hiff : melodyFilter (DoSearch_melody melodyText) note_data = true ↔
      ∀ phrase ∈ QString_split '|' melodyText, phrase.all QChar_isSpace = false →
        phraseBytes phrase <:+: note_data := by
    rw [melodyFilter_eq_true_iff _ _ (DoSearch_melody_clauses melodyText), hbytes]
    constructor
    · intro h phrase hp hsp
      exact h _ (List.mem_map_of_mem _ (List.mem_filter.2 ⟨hp, by simp [hsp]⟩))
    · intro h needle hn
      obtain ⟨phrase, hp, rfl⟩ := List.mem_map.1 hn
      obtain ⟨hp1, hp2⟩ := List.mem_filter.1 hp
      exact h phrase hp1 (by simpa using hp2)
  refine ⟨hiff, hbytes, ?_⟩
  intro hall
  rw [hiff]
  intro phrase hp hsp
  rw [hall phrase hp] at hsp
  exact absurd hsp (by decide)

/-- C9: replacing a cell that holds no valid note by another value that is no valid note (an
empty cell among them), or inserting a row of such cells into a pattern (deleting it, read
from right to left), leaves the output of `BuildNoteString` unchanged; in the row loop such a
cell adds no byte and leaves `lastNote` as it is. -/
theorem invalid_cells_leave_no_trace (mod : OpenmptModule) (notes : List Nat) :
    (∀ (p : Int) (r c v : Nat),
        isNote (mod.get_pattern_row_channel_command p r c command_note % 256) = false →
        isNote (v % 256) = false →
        BuildNoteString (setCell mod p r c v) notes = BuildNoteString mod notes) ∧
      (∀ (p : Int) (r : Nat) (fill : Nat → Nat), r ≤ mod.get_pattern_num_rows p →
        (∀ c, isNote (fill c % 256) = false) →
        BuildNoteString (insertRow mod p r fill) notes = BuildNoteString mod notes) ∧
      (∀ (st : List Nat × Int) (note : Nat), isNote note = false → noteStep st note = st) := by
  refine ⟨?_, ?_, ?_⟩
  · intro p r c v hold hnew
    rw [BuildNoteString_eq, BuildNoteString_eq,
      traversals_congr (setCell mod p r c v) mod rfl rfl
        (validNotes_setCell mod p r c v hold hnew)]
  · intro p r fill hr hfill
    rw [BuildNoteString_eq, BuildNoteString_eq,
      traversals_congr (insertRow mod p r fill) mod rfl rfl
        (validNotes_insertRow mod p r fill hr hfill)]
  · intro st note h
    simp [noteStep, h]

/-- C9 at a concrete module: the empty cell of `sampleModule` is given the value 200, and a
row holding 255 is inserted before row 1. -/
theorem invalid_cells_leave_no_trace_witness :
    BuildNoteString (setCell sampleModule 0 2 0 200) [] = BuildNoteString sampleModule [] ∧
      BuildNoteString (insertRow sampleModule 0 1 fun _ => 255) [] =
        BuildNoteString sampleModule [] :=
  ⟨(invalid_cells_leave_no_trace sampleModule []).1 0 2 0 200 (by decide) (by decide),
    (invalid_cells_leave_no_trace sampleModule []).2.1 0 1 (fun _ => 255) (by decide)
      (fun _ => rfl)⟩

/-- C10: the output of `BuildNoteString` is the concatenation of one segment per traversal,
`S * C` segments in subsong-then-channel order; the segment of subsong `s`, channel `c` begins
with the negation modulo 256 of the running value left by the valid notes of all earlier
traversals (0 when there are none) and goes on with one byte per valid note of the traversal;
the segments without their first bytes are the delta encoding, from 0 and without reset, of
all valid notes in traversal order; the output has `S * C` bytes more than there are valid
notes. -/
theorem sync_bytes_and_delta_stream (mod : OpenmptModule) :
    ∃ segs : List (List Nat),
      BuildNoteString mod [] = segs.flatten ∧
      segs.length = mod.get_num_subsongs * mod.get_num_channels ∧
      (∀ s c, s < mod.get_num_subsongs → c < mod.get_num_channels →
        (traversals mod)[s * mod.get_num_channels + c]? = some (validNotes mod s c) ∧
        ∃ deltas, segs[s * mod.get_num_channels + c]? =
            some (toByte (-(lastAfter 0
              ((traversals mod).take (s * mod.get_num_channels + c)).flatten)) :: deltas) ∧
          deltas.length = (validNotes mod s c).length) ∧
      (segs.map List.tail).flatten = deltaEncode 0 (traversals mod).flatten ∧
      (BuildNoteString mod []).length =
        mod.get_num_subsongs * mod.get_num_channels + (traversals mod).flatten.length := by
  refine ⟨segments 0 (traversals mod), ?_, ?_, ?_, ?_, ?_⟩
  · rw [BuildNoteString_eq, List.nil_append]
  · rw [segments_length, traversals_length]
  · intro s c hs hc
    have ht := traversals_getElem? mod s c hs hc
    refine ⟨ht, deltaEncode (lastAfter 0
      ((traversals mod).take (s * mod.get_num_channels + c)).flatten) (validNotes mod s c), ?_,
      deltaEncode_length _ _⟩
    rw [segments_getElem?, ht]
    rfl
  · exact segments_tail_flatten 0 _
  · rw [BuildNoteString_eq, List.nil_append, segments_flatten_length, traversals_length]

/-! ## Tables the calls can reach -/

theorem insertExec_some (db db' : List Row) (r : Row) (h : insertExec db r = some db') :
    (∀ x ∈ db, x.hash ≠ r.hash ∧ x.filename ≠ r.filename) ∧
      db' = db ++ [{ r with personal_comments := none }] := by
  unfold insertExec at h
  by_cases hany : (db.any fun x =>
      decide (x.hash = r.hash) || decide (x.filename = r.filename)) = true
  · rw [if_pos hany] at h
    exact absurd h (by simp)
  · rw [if_neg hany] at h
    refine ⟨?_, (Option.some.inj h).symm⟩
    intro x hx
    have hx' : ¬ (decide (x.hash = r.hash) || decide (x.filename = r.filename)) = true :=
      fun hc => hany (List.any_eq_true.2 ⟨x, hx, hc⟩)
    simp only [Bool.or_eq_true, decide_eq_true_eq, not_or] at hx'
    exact hx'

theorem updateExec_some (db db' : List Row) (r : Row) (f : String)
    (h : updateExec db r f = some db') :
    db' = db ∨
      ((∀ x ∈ db, x.filename ≠ f → x.hash ≠ r.hash ∧ x.filename ≠ r.filename) ∧
        db' = db.map fun x =>
          if x.filename = f then { r with personal_comments := x.personal_comments } else x) := by
  unfold updateExec at h
  simp only [] at h
  by_cases hhit : (db.filter fun x => decide (x.filename = f)).isEmpty = true
  · rw [if_pos hhit] at h
    exact Or.inl (Option.some.inj h).symm
  · rw [if_neg hhit] at h
    by_cases hcol : (decide (1 < (db.filter fun x => decide (x.filename = f)).length) ||
        (db.filter fun x => !decide (x.filename = f)).any fun x =>
          decide (x.hash = r.hash) || decide (x.filename = r.filename)) = true
    · rw [if_pos hcol] at h
      exact absurd h (by simp)
    · rw [if_neg hcol] at h
      refine Or.inr ⟨?_, (Option.some.inj h).symm⟩
      intro x hx hxf
      simp only [Bool.or_eq_true, not_or] at hcol
      have hx' : ¬ (decide (x.hash = r.hash) || decide (x.filename = r.filename)) = true :=
        fun hc => hcol.2 (List.any_eq_true.2
          ⟨x, List.mem_filter.2 ⟨hx, by simp [hxf]⟩, hc⟩)
      simp only [Bool.or_eq_true, decide_eq_true_eq, not_or] at hx'
      exact hx'

/-- Replacing the row of one file name keeps a key free of repetitions when no other row
holds the new key. -/
theorem nodup_map_replace (key : Row → String) (r : Row) (f : String)
    (hkey : ∀ pc, key { r with personal_comments := pc } = key r) (db : List Row)
    (hnames : (db.map fun x => x.filename).Nodup) (hk : (db.map key).Nodup)
    (hfree : ∀ x ∈ db, x.filename ≠ f → key x ≠ key r) :
    ((db.map fun x =>
      if x.filename = f then { r with personal_comments := x.personal_comments } else x).map
        key).Nodup := by
  induction db with
  | nil => simp
  | cons x xs ih =>
    simp only [List.map_cons, List.nodup_cons] at hnames hk ⊢
    have hfree' : ∀ y ∈ xs, y.filename ≠ f → key y ≠ key r :=
      fun y hy => hfree y (List.mem_cons_of_mem _ hy)
    refine ⟨?_, ih hnames.2 hk.2 hfree'⟩
    intro hmem
    obtain ⟨y', hy', hyk⟩ := List.mem_map.1 hmem
    obtain ⟨y, hy, rfl⟩ := List.mem_map.1 hy'
    by_cases hxf : x.filename = f
    · have hyf : y.filename ≠ f := by
        intro hyf
        exact hnames.1 (List.mem_map.2 ⟨y, hy, by rw [hyf, hxf]⟩)
      simp only [hxf, if_true, hyf, if_false, hkey] at hyk
      exact hfree' y hy hyf hyk
    · simp only [hxf, if_false] at hyk
      by_cases hyf : y.filename = f
      · simp only [hyf, if_true, hkey] at hyk
        exact hfree x (List.mem_cons_self _ _) hxf hyk.symm
      · simp only [hyf, if_false] at hyk
        exact hk.1 (List.mem_map.2 ⟨y, hy, hyk⟩)

theorem Distinct_exec (q : Query) (db db' : List Row) (r : Row) (hd : Distinct db)
    (h : q.exec db r = some db') : Distinct db' := by
  cases q with
  | insertQuery =>
    obtain ⟨hfree, rfl⟩ := insertExec_some db db' r h
    refine ⟨?_, ?_⟩
    · rw [List.map_append, List.nodup_append]
      refine ⟨hd.1, by simp, ?_⟩
      intro a ha hb
      obtain ⟨x, hx, rfl⟩ := List.mem_map.1 ha
      simp only [List.map_cons, List.map_nil, List.mem_singleton] at hb
      exact (hfree x hx).1 hb
    · rw [List.map_append, List.nodup_append]
      refine ⟨hd.2, by simp, ?_⟩
      intro a ha hb
      obtain ⟨x, hx, rfl⟩ := List.mem_map.1 ha
      simp only [List.map_cons, List.map_nil, List.mem_singleton] at hb
      exact (hfree x hx).2 hb
  | updateQuery f =>
    rcases updateExec_some db db' r f h with rfl | ⟨hfree, rfl⟩
    · exact hd
    · exact ⟨nodup_map_replace (fun x => x.hash) r f (fun _ => rfl) db hd.2 hd.1
          (fun x hx hxf => (hfree x hx hxf).1),
        nodup_map_replace (fun x => x.filename) r f (fun _ => rfl) db hd.2 hd.2
          (fun x hx hxf => (hfree x hx hxf).2)⟩

theorem Distinct_PrepareQuery (w : World) (db : List Row) (path : String) (q : Query)
    (hd : Distinct db) : Distinct (PrepareQuery w db path q).2 := by
  cases hr : w.readAll path with
  | none => rw [PrepareQuery_unreadable w db path q hr]; exact hd
  | some content =>
    cases hl : w.load content with
    | none => rw [PrepareQuery_unparsable w db path q content hr hl]; exact hd
    | some mod =>
      rw [PrepareQuery_loaded w db path q content mod hr hl]
      split
      · exact hd
      · cases he : q.exec db (boundRow w path content mod) with
        | none => exact hd
        | some db' => exact Distinct_exec q db db' _ hd he

theorem Distinct_UpdateModule (w : World) (db : List Row) (path : String) (hd : Distinct db) :
    Distinct (UpdateModule w db path).2 :=
  Distinct_PrepareQuery w db path _ hd

theorem Distinct_AddModule (w : World) (db : List Row) (path : String) (hd : Distinct db) :
    Distinct (AddModule w db path).2 := by
  unfold AddModule
  simp only []
  split
  · exact Distinct_PrepareQuery w db path _ hd
  · exact Distinct_UpdateModule w _ path (Distinct_PrepareQuery w db path _ hd)

theorem Distinct_UpdateComments (db : List Row) (path comments : String) (hd : Distinct db) :
    Distinct (UpdateComments db path comments) := by
  unfold UpdateComments updateCommentsExec Distinct
  have h1 : ((fun x : Row => x.hash) ∘ fun x : Row =>
      if x.filename = path then { x with personal_comments := some comments } else x) =
      fun x => x.hash := by
    funext x
    by_cases h : x.filename = path <;> simp [h]
  have h2 : ((fun x : Row => x.filename) ∘ fun x : Row =>
      if x.filename = path then { x with personal_comments := some comments } else x) =
      fun x => x.filename := by
    funext x
    by_cases h : x.filename = path <;> simp [h]
  rw [List.map_map, List.map_map, h1, h2]
  exact hd

theorem Distinct_RemoveModule (w : World) (db : List Row) (path : String) (hd : Distinct db) :
    Distinct (RemoveModule w db path) :=
  ⟨hd.1.sublist (List.Sublist.map _ (List.filter_sublist _)),
    hd.2.sublist (List.Sublist.map _ (List.filter_sublist _))⟩

theorem Distinct_of_Reachable (db : List Row) (h : Reachable db) : Distinct db := by
  induction h with
  | empty => exact ⟨List.nodup_nil, List.nodup_nil⟩
  | addModule w db path _ ih => exact Distinct_AddModule w db path ih
  | updateModule w db path _ ih => exact Distinct_UpdateModule w db path ih
  | updateComments db path comments _ ih => exact Distinct_UpdateComments db path comments ih
  | removeModule w db path _ ih => exact Distinct_RemoveModule w db path ih

/-- With no digest held twice the duplicate query has no result row. -/
theorem OnFindDupes_eq_nil (db : List Row) (h : (db.map fun x => x.hash).Nodup) :
    OnFindDupes db = [] := by
  unfold OnFindDupes
  rw [List.filterMap_eq_nil_iff]
  intro hsh _
  have hlen : (db.filter fun x => decide (x.hash = hsh)).length ≤ 1 := by
    have hsub : ((db.filter fun x => decide (x.hash = hsh)).map fun x => x.hash).Nodup :=
      h.sublist (List.Sublist.map _ (List.filter_sublist _))
    have hall : ∀ y ∈ (db.filter fun x => decide (x.hash = hsh)).map fun x => x.hash,
        y = hsh := by
      intro y hy
      obtain ⟨x, hx, rfl⟩ := List.mem_map.1 hy
      simpa using (List.mem_filter.1 hx).2
    have := length_le_one_of_nodup_const _ hsh hsub hall
    simpa using this
  simp only []
  cases (db.filter fun x => decide (x.hash = hsh)).getLast? with
  | none => rfl
  | some x =>
    have : ¬ 1 < (db.filter fun x => decide (x.hash = hsh)).length := by omega
    simp [this]

/-! ## The passes of `OnPasteMPT` -/

theorem QString_indexOf_some (s : List Char) (ch : Char) (from_ off : Nat)
    (h : QString_indexOf s ch from_ = some off) : from_ ≤ off ∧ off < s.length := by
  unfold QString_indexOf at h
  by_cases hlt : (s.drop from_).indexOf ch < (s.drop from_).length
  · rw [if_pos hlt] at h
    have := Option.some.inj h
    rw [List.length_drop] at hlt
    omega
  · rw [if_neg hlt] at h
    exact absurd h (by simp)

theorem barLoop_some (line : List Char) (more from_ off : Nat)
    (h : barLoop line more from_ = some off) : from_ + more ≤ off ∧ off < line.length := by
  induction more generalizing from_ with
  | zero =>
    have := QString_indexOf_some line '|' from_ off h
    omega
  | succ more ih =>
    unfold barLoop at h
    cases hi : QString_indexOf line '|' from_ with
    | none => rw [hi] at h; exact absurd h (by simp)
    | some o =>
      rw [hi] at h
      have h1 := QString_indexOf_some line '|' from_ o hi
      have h2 := ih (o + 1) h
      omega

theorem barOffset_lt_length (line : List Char) (channels off : Nat)
    (h : barOffset line channels = some off) : channels < line.length := by
  have := barLoop_some line channels 0 off h
  omega

theorem cellNote_nonneg (line : List Char) (offset : Nat) (octave : Char) :
    0 ≤ cellNote line offset octave := by
  unfold cellNote
  simp only []
  split
  · split
    · rename_i h _
      have := h.1
      omega
    · exact le_refl _
  · exact le_refl _

theorem pasteLine_of_no_bar (channels : Nat) (st : Int × List Char) (line : List Char)
    (h : barOffset line channels = none) : pasteLine channels st line = some st := by
  unfold pasteLine
  rw [h]

/-- A line that has the column leaves `prevNote` different from `-1`. -/
theorem pasteLine_of_bar (channels : Nat) (st st' : Int × List Char) (line : List Char)
    (off : Nat) (hb : barOffset line channels = some off)
    (h : pasteLine channels st line = some st') : st'.1 ≠ -1 := by
  unfold pasteLine at h
  rw [hb] at h
  simp only [] at h
  cases hc : line.get? (off + 3) with
  | none => rw [hc] at h; exact absurd h (by simp)
  | some octave =>
    rw [hc] at h
    simp only [] at h
    have hn := cellNote_nonneg line off octave
    by_cases hz : cellNote line off octave ≠ 0
    · rw [if_pos hz] at h
      have := Option.some.inj h
      rw [← this]
      simp only []
      omega
    · rw [if_neg hz] at h
      have := Option.some.inj h
      rw [← this]
      simp only []
      split <;> omega

theorem pasteLine_keeps (channels : Nat) (st st' : Int × List Char) (line : List Char)
    (hst : st.1 ≠ -1) (h : pasteLine channels st line = some st') : st'.1 ≠ -1 := by
  cases hb : barOffset line channels with
  | none =>
    rw [pasteLine_of_no_bar channels st line hb] at h
    rw [← Option.some.inj h]
    exact hst
  | some off => exact pasteLine_of_bar channels st st' line off hb h

theorem pasteLine_append (channels : Nat) (p : Int) (a b line : List Char) :
    pasteLine channels (p, a ++ b) line =
      (pasteLine channels (p, b) line).map fun q => (q.1, a ++ q.2) := by
  unfold pasteLine
  cases barOffset line channels with
  | none => rfl
  | some off =>
    simp only []
    cases line.get? (off + 3) with
    | none => rfl
    | some octave =>
      simp only []
      by_cases hz : cellNote line off octave ≠ 0
      · rw [if_pos hz, if_pos hz]
        by_cases hp : (if p = -1 then (0 : Int) else p) ≠ 0
        · simp [hp, List.append_assoc]
        · simp [hp]
      · rw [if_neg hz, if_neg hz]
        rfl

theorem pastePass_nil (channels : Nat) (st : Int × List Char) :
    pastePass [] channels st = some st := rfl

theorem pastePass_cons (line : List Char) (lines : List (List Char)) (channels : Nat)
    (st : Int × List Char) :
    pastePass (line :: lines) channels st =
      (pasteLine channels st line).bind fun st' => pastePass lines channels st' := by
  unfold pastePass
  rw [List.foldlM_cons]
  rfl

theorem pastePass_append (lines : List (List Char)) (channels : Nat) (p : Int)
    (a b : List Char) :
    pastePass lines channels (p, a ++ b) =
      (pastePass lines channels (p, b)).map fun q => (q.1, a ++ q.2) := by
  induction lines generalizing p b with
  | nil => simp [pastePass_nil]
  | cons line lines ih =>
    rw [pastePass_cons, pastePass_cons, pasteLine_append]
    cases pasteLine channels (p, b) line with
    | none => rfl
    | some q =>
      obtain ⟨q1, q2⟩ := q
      simp only [Option.map_some', Option.some_bind]
      exact ih q1 q2

theorem pastePass_keeps (lines : List (List Char)) (channels : Nat)
    (st st' : Int × List Char) (hst : st.1 ≠ -1) (h : pastePass lines channels st = some st') :
    st'.1 ≠ -1 := by
  induction lines generalizing st with
  | nil =>
    rw [pastePass_nil] at h
    rw [← Option.some.inj h]
    exact hst
  | cons line lines ih =>
    rw [pastePass_cons] at h
    cases hl : pasteLine channels st line with
    | none => rw [hl] at h; exact absurd h (by simp)
    | some st1 =>
      rw [hl] at h
      exact ih st1 (pasteLine_keeps channels st st1 line hst hl) h

/-- A pass ends with `prevNote = -1` exactly when no line has the column. -/
theorem pastePass_eq_neg_one_iff (lines : List (List Char)) (channels : Nat)
    (st st' : Int × List Char) (hst : st.1 = -1) (h : pastePass lines channels st = some st') :
    st'.1 = -1 ↔ ∀ line ∈ lines, barOffset line channels = none := by
  induction lines generalizing st with
  | nil =>
    rw [pastePass_nil] at h
    rw [← Option.some.inj h]
    simp [hst]
  | cons line lines ih =>
    rw [pastePass_cons] at h
    cases hb : barOffset line channels with
    | none =>
      rw [pasteLine_of_no_bar channels st line hb] at h
      simp only [Option.some_bind] at h
      rw [ih st hst h]
      simp [hb]
    | some off =>
      cases hl : pasteLine channels st line with
      | none => rw [hl] at h; exact absurd h (by simp)
      | some st1 =>
        rw [hl] at h
        simp only [Option.some_bind] at h
        have h1 := pasteLine_of_bar channels st st1 line off hb hl
        have h2 := pastePass_keeps lines channels st1 st' h1 h
        constructor
        · intro hc; exact absurd hc h2
        · intro hall
          have := hall line (List.mem_cons_self _ _)
          rw [hb] at this
          exact absurd this (by simp)

theorem exists_bar_of_ne_neg_one (lines : List (List Char)) (channels : Nat)
    (st' : Int × List Char) (mel : List Char)
    (h : pastePass lines channels (-1, mel) = some st') (hne : st'.1 ≠ -1) :
    ∃ line ∈ lines, (barOffset line channels).isSome = true := by
  by_contra hcon
  apply hne
  rw [pastePass_eq_neg_one_iff lines channels (-1, mel) st' rfl h]
  intro line hl
  cases hb : barOffset line channels with
  | none => rfl
  | some off => exact absurd ⟨line, hl, by simp [hb]⟩ hcon

/-- The text a pass appends does not depend on the melody collected so far. -/
theorem pastePass_passText (lines : List (List Char)) (channels : Nat) (mel mel1 : List Char)
    (p : Int) (h : pastePass lines channels (-1, mel) = some (p, mel1)) :
    (if p ≠ 0 then mel1 ++ ['|'] else mel1) = mel ++ passText lines channels := by
  have happ := pastePass_append lines channels (-1) mel []
  rw [List.append_nil, h] at happ
  unfold passText
  cases hq : pastePass lines channels (-1, []) with
  | none => rw [hq] at happ; exact absurd happ (by simp)
  | some q =>
    obtain ⟨q1, q2⟩ := q
    rw [hq] at happ
    simp only [Option.map_some', Option.some.injEq, Prod.mk.injEq] at happ
    obtain ⟨h1, h2⟩ := happ
    subst h1 h2
    by_cases hp : p ≠ 0
    · simp [hp]
    · simp [hp]

/-- The passes the loop runs and the text it collects. -/
theorem pasteLoop_setText (lines : List (List Char)) (fuel c : Nat) (mel m : List Char)
    (h : pasteLoop lines fuel c mel = .setText m) :
    ∃ n, c ≤ n ∧ (∀ line ∈ lines, barOffset line n = none) ∧
      (∀ c', c ≤ c' → c' < n → ∃ line ∈ lines, (barOffset line c').isSome = true) ∧
      m = mel ++ (List.range' c (n + 1 - c)).flatMap (passText lines) := by
  induction fuel generalizing c mel with
  | zero => simp [pasteLoop] at h
  | succ fuel ih =>
    unfold pasteLoop at h
    cases hp : pastePass lines c (-1, mel) with
    | none => rw [hp] at h; simp at h
    | some st =>
      obtain ⟨p, mel1⟩ := st
      rw [hp] at h
      simp only [] at h
      have htext := pastePass_passText lines c mel mel1 p hp
      rw [htext] at h
      by_cases hne : p ≠ -1
      · rw [if_pos hne] at h
        obtain ⟨n, hn, hnone, hsome, hm⟩ := ih (c + 1) _ h
        refine ⟨n, by omega, hnone, ?_, ?_⟩
        · intro c' hc1 hc2
          by_cases hcc : c' = c
          · subst hcc
            exact exists_bar_of_ne_neg_one lines c' (p, mel1) mel hp hne
          · exact hsome c' (by omega) hc2
        · rw [hm]
          have : n + 1 - c = (n + 1 - (c + 1)) + 1 := by omega
          rw [this, List.range'_succ]
          simp [List.append_assoc]
      · rw [if_neg hne] at h
        have hm := PasteResult.setText.inj h
        have hp1 : p = -1 := by omega
        refine ⟨c, le_refl _, ?_, ?_, ?_⟩
        · exact (pastePass_eq_neg_one_iff lines c (-1, mel) (p, mel1) rfl hp).1 hp1
        · intro c' h1 h2; omega
        · rw [← hm]
          simp

theorem length_le_sum_of_mem (lines : List (List Char)) (line : List Char)
    (h : line ∈ lines) : line.length ≤ (lines.map List.length).sum := by
  induction lines with
  | nil => simp at h
  | cons l ls ih =>
    simp only [List.map_cons, List.sum_cons]
    rcases List.mem_cons.1 h with rfl | h
    · omega
    · have := ih h
      omega

/-- The loop ends within the passes it is given. -/
theorem pasteLoop_ne_outOfFuel (lines : List (List Char)) (fuel c : Nat) (mel : List Char)
    (hc : c ≤ (lines.map List.length).sum) (hf : (lines.map List.length).sum < fuel + c) :
    pasteLoop lines fuel c mel ≠ .outOfFuel := by
  induction fuel generalizing c mel with
  | zero => omega
  | succ fuel ih =>
    unfold pasteLoop
    cases hp : pastePass lines c (-1, mel) with
    | none => simp
    | some st =>
      obtain ⟨p, mel1⟩ := st
      simp only []
      by_cases hne : p ≠ -1
      · rw [if_pos hne]
        obtain ⟨line, hl, hb⟩ := exists_bar_of_ne_neg_one lines c (p, mel1) mel hp hne
        obtain ⟨off, hoff⟩ := Option.isSome_iff_exists.1 hb
        have h1 := barOffset_lt_length line c off hoff
        have h2 := length_le_sum_of_mem lines line hl
        exact ih (c + 1) _ (by omega) (by omega)
      · rw [if_neg hne]
        simp

/-- `OnPasteMPT` ends on every clipboard text. -/
theorem OnPasteMPT_ne_outOfFuel (data : List Char) : OnPasteMPT data ≠ .outOfFuel := by
  unfold OnPasteMPT
  cases pasteLines data with
  | none => simp
  | some lines =>
    simp only []
    exact pasteLoop_ne_outOfFuel lines _ 0 [] (Nat.zero_le _) (by omega)

/-! ## The query text of `DoSearch` -/

theorem appendIf_append (c : Bool) (q x text : String) :
    appendIf c (q ++ x) text = q ++ appendIf c x text := by
  unfold appendIf
  cases c <;> simp [String.append_assoc]

theorem foldl_append_clauses (t : Nat → String) (clauses : List Nat) (q x : String) :
    clauses.foldl (fun queryStr k => queryStr ++ t k) (q ++ x) =
      q ++ clauses.foldl (fun queryStr k => queryStr ++ t k) x := by
  induction clauses generalizing x with
  | nil => rfl
  | cons k ks ih =>
    rw [List.foldl_cons, List.foldl_cons, String.append_assoc, ih]

/-- The `WHERE` part is appended to whatever the query text holds. -/
theorem DoSearch_where_append (ui : SearchForm) (clauses : List Nat) (q x : String) :
    DoSearch_where ui clauses (q ++ x) = q ++ DoSearch_where ui clauses x := by
  unfold DoSearch_where
  simp only [String.append_assoc, appendIf_append, foldl_append_clauses]

theorem DoSearch_where_eq (ui : SearchForm) (clauses : List Nat) (q : String) :
    DoSearch_where ui clauses q = q ++ DoSearch_where ui clauses "" := by
  have := DoSearch_where_append ui clauses q ""
  rwa [String.append_empty] at this

/-! ## The module of a grid -/

theorem range_one_eq : List.range 1 = [0] := rfl

theorem map_getD_range (l : List Nat) :
    ((List.range l.length).map fun r => l.getD r 0) = l := by
  apply List.ext_getElem
  · simp
  · intro n h1 h2
    simp [List.getD_eq_getElem?_getD, List.getElem?_eq_getElem h2]

theorem gridRows_le (grid : List GridLine) : ∀ v ∈ gridRows grid, v ≤ 128 := by
  intro v hv
  unfold gridRows at hv
  obtain ⟨g, _, hg⟩ := List.mem_filterMap.1 hv
  cases hc : g.cell with
  | none => rw [hc] at hg; simp at hg
  | some c =>
    rw [hc] at hg
    simp only [Option.map_some', Option.some.injEq] at hg
    cases c with
    | none => simp at hg; omega
    | some ik =>
      obtain ⟨i, k⟩ := ik
      simp only [] at hg
      have := i.isLt
      have := k.isLt
      omega

theorem filter_isNote_gridRows (grid : List GridLine) :
    (gridRows grid).filter isNote = (gridNotes grid).map fun n => n + 1 := by
  unfold gridRows gridNotes
  induction grid with
  | nil => rfl
  | cons g gs ih =>
    cases hc : g.cell with
    | none => simp [List.filterMap_cons, hc, ih]
    | some c =>
      cases c with
      | none => simp [List.filterMap_cons, hc, ih, isNote]
      | some ik =>
        obtain ⟨i, k⟩ := ik
        have hi := i.isLt
        have hk := k.isLt
        have hn : isNote (12 * k.val + i.val + 1) = true := by
          simp only [isNote, Bool.and_eq_true, decide_eq_true_eq]
          omega
        simp only [List.filterMap_cons, hc, Option.map_some', List.filter_cons, hn, if_true, ih,
          List.map_cons]
        congr 1
        omega

theorem validNotes_gridModule (grid : List GridLine) :
    validNotes (gridModule grid) 0 0 = (gridNotes grid).map fun n => n + 1 := by
  rw [← filter_isNote_gridRows]
  unfold validNotes cells gridModule
  simp only [range_one_eq, List.flatMap_cons, List.flatMap_nil, List.append_nil, if_true,
    true_and, and_self]
  congr 1
  have h : ((List.range (gridRows grid).length).map fun r => (gridRows grid).getD r 0 % 256) =
      (List.range (gridRows grid).length).map fun r => (gridRows grid).getD r 0 := by
    apply List.map_congr_left
    intro r hr
    have hr' := List.mem_range.1 hr
    have hmem : (gridRows grid).getD r 0 ∈ gridRows grid := by
      rw [List.getD_eq_getElem?_getD, List.getElem?_eq_getElem hr']
      exact List.getElem_mem hr'
    have := gridRows_le grid _ hmem
    omega
  rw [h, map_getD_range]

theorem traversals_gridModule (grid : List GridLine) :
    traversals (gridModule grid) = [(gridNotes grid).map fun n => n + 1] := by
  have := validNotes_gridModule grid
  unfold traversals
  simp only [gridModule, range_one_eq, List.flatMap_cons, List.flatMap_nil, List.append_nil,
    List.map_cons, List.map_nil]
  simp only [gridModule] at this
  rw [this]

theorem intervals_map_succ (ns : List Nat) :
    intervals (ns.map fun n => n + 1) = intervals ns := by
  induction ns with
  | nil => rfl
  | cons a as ih =>
    cases as with
    | nil => rfl
    | cons b bs =>
      simp only [List.map_cons, intervals] at ih ⊢
      rw [ih]
      congr 2
      push_cast
      omega

theorem intervals_eq_map_noteDiffs (ns : List Nat) :
    intervals ns = (noteDiffs ns).map fun d => (d % 256).toNat := by
  induction ns with
  | nil => rfl
  | cons a as ih =>
    cases as with
    | nil => rfl
    | cons b bs =>
      simp only [intervals, noteDiffs, List.map_cons, ih]
      rfl

/-- The note data of the module of a grid: the synchronisation byte, the first note, and the
differences of the notes. -/
theorem BuildNoteString_gridModule (grid : List GridLine) (n0 : Nat) (ns : List Nat)
    (h : gridNotes grid = n0 :: ns) :
    BuildNoteString (gridModule grid) [] =
      0 :: toByte (toInt8 ((n0 + 1 : Nat) : Int)) :: intervals (gridNotes grid) := by
  rw [BuildNoteString_eq, traversals_gridModule, h]
  simp only [List.nil_append, segments, List.map_cons, List.flatten_cons, List.flatten_nil,
    List.append_nil, deltaEncode, deltaEncode_eq_intervals]
  rw [← List.map_cons (f := fun n => n + 1), intervals_map_succ]
  simp [toByte]

/-! ## Decimal notation -/

theorem digitChar_spec (d : Nat) (hd : d < 10) :
    (Char.ofNat (48 + d)).toNat = 48 + d ∧
      (decide ('0' ≤ Char.ofNat (48 + d)) && decide (Char.ofNat (48 + d) ≤ '9')) = true ∧
      Char.ofNat (48 + d) ≠ '-' ∧ Char.ofNat (48 + d) ≠ '+' ∧ Char.ofNat (48 + d) ≠ '|' ∧
      Char.ofNat (48 + d) ≠ '\n' ∧ QChar_isSpace (Char.ofNat (48 + d)) = false ∧
      QChar_toLatin1 (Char.ofNat (48 + d)) = 48 + d := by
  interval_cases d <;> decide

theorem natDigitsRev_spec (fuel n : Nat) (h : n < fuel) :
    natDigitsRev fuel n ≠ [] ∧
      (∀ c ∈ natDigitsRev fuel n, ∃ d, d < 10 ∧ c = Char.ofNat (48 + d)) ∧
      (natDigitsRev fuel n).foldr (fun c acc => acc * 10 + (c.toNat - 48)) 0 = n := by
  induction fuel generalizing n with
  | zero => omega
  | succ fuel ih =>
    unfold natDigitsRev
    by_cases hn : n < 10
    · rw [if_pos hn]
      refine ⟨by simp, ?_, ?_⟩
      · intro c hc
        exact ⟨n, hn, by simpa using hc⟩
      · simp [(digitChar_spec n hn).1]
    · rw [if_neg hn]
      obtain ⟨_, h2, h3⟩ := ih (n / 10) (by omega)
      refine ⟨by simp, ?_, ?_⟩
      · intro c hc
        rcases List.mem_cons.1 hc with rfl | hc
        · exact ⟨n % 10, Nat.mod_lt _ (by norm_num), rfl⟩
        · exact h2 c hc
      · simp only [List.foldr_cons, h3, (digitChar_spec (n % 10) (Nat.mod_lt _ (by norm_num))).1]
        omega

theorem digitsValue_reverse (l : List Char) (hne : l ≠ [])
    (hall : ∀ c ∈ l, ∃ d, d < 10 ∧ c = Char.ofNat (48 + d)) :
    digitsValue l.reverse = some (l.foldr (fun c acc => acc * 10 + (c.toNat - 48)) 0) := by
  unfold digitsValue
  have h1 : l.reverse.isEmpty = false := by
    cases l with
    | nil => exact absurd rfl hne
    | cons a as => simp
  have h2 : (l.reverse.all fun c => decide ('0' ≤ c) && decide (c ≤ '9')) = true := by
    rw [List.all_eq_true]
    intro c hc
    obtain ⟨d, hd, rfl⟩ := hall c (List.mem_reverse.1 hc)
    exact (digitChar_spec d hd).2.1
  rw [h1, h2, List.foldl_reverse]
  simp

theorem digitsValue_natDigits (n : Nat) :
    digitsValue (natDigitsRev (n + 1) n).reverse = some n := by
  obtain ⟨h1, h2, h3⟩ := natDigitsRev_spec (n + 1) n (by omega)
  rw [digitsValue_reverse _ h1 h2, h3]

/-- Reading back what `QString::number` wrote. -/
theorem decimalValue_number (z : Int) : decimalValue (QString_number z) = some z := by
  unfold QString_number
  by_cases hz : z < 0
  · rw [if_pos hz]
    simp only [decimalValue, if_true, digitsValue_natDigits, Option.map_some',
      Option.some.injEq, Option.bind_eq_bind, Option.some_bind, Option.pure_def]
    omega
  · rw [if_neg hz]
    obtain ⟨h1, h2, _⟩ := natDigitsRev_spec (z.natAbs + 1) z.natAbs (by omega)
    have hv := digitsValue_natDigits z.natAbs
    cases hl : (natDigitsRev (z.natAbs + 1) z.natAbs).reverse with
    | nil =>
      have := congrArg List.length hl
      simp at this
      exact absurd this h1
    | cons c cs =>
      rw [hl] at hv
      have hc : c ∈ natDigitsRev (z.natAbs + 1) z.natAbs := by
        rw [← List.mem_reverse, hl]
        exact List.mem_cons_self _ _
      obtain ⟨d, hd, rfl⟩ := h2 c hc
      have hs := digitChar_spec d hd
      simp only [decimalValue, hs.2.2.1, hs.2.2.2.1, if_false, hv, Option.map_some',
        Option.some.injEq, Option.bind_eq_bind, Option.some_bind, Option.pure_def]
      omega

theorem mem_QString_number (z : Int) :
    ∀ c ∈ QString_number z, c = '-' ∨ ∃ d, d < 10 ∧ c = Char.ofNat (48 + d) := by
  intro c hc
  obtain ⟨_, h2, _⟩ := natDigitsRev_spec (z.natAbs + 1) z.natAbs (by omega)
  unfold QString_number at hc
  by_cases hz : z < 0
  · rw [if_pos hz] at hc
    rcases List.mem_cons.1 hc with rfl | hc
    · exact Or.inl rfl
    · exact Or.inr (h2 c (List.mem_reverse.1 hc))
  · rw [if_neg hz] at hc
    exact Or.inr (h2 c (List.mem_reverse.1 hc))

theorem QString_number_ne_nil (z : Int) : QString_number z ≠ [] := by
  obtain ⟨h1, _, _⟩ := natDigitsRev_spec (z.natAbs + 1) z.natAbs (by omega)
  unfold QString_number
  by_cases hz : z < 0
  · rw [if_pos hz]; simp
  · rw [if_neg hz]
    simpa using h1

theorem QString_number_no_space (z : Int) : ∀ c ∈ QString_number z, QChar_isSpace c = false := by
  intro c hc
  rcases mem_QString_number z c hc with rfl | ⟨d, hd, rfl⟩
  · decide
  · exact (digitChar_spec d hd).2.2.2.2.2.2.1

theorem QString_number_no_bar (z : Int) : '|' ∉ QString_number z := by
  intro hc
  rcases mem_QString_number z _ hc with h | ⟨d, hd, h⟩
  · exact absurd h (by decide)
  · exact (digitChar_spec d hd).2.2.2.2.1 h.symm

/-! ## Pasting a single-channel grid -/

theorem QString_indexOfStr_append (pat rest : List Char) :
    QString_indexOfStr (pat ++ rest) pat = some 0 := by
  cases h : pat ++ rest with
  | nil =>
    have hp : pat = [] := (List.append_eq_nil.1 h).1
    simp [QString_indexOfStr, hp]
  | cons c s =>
    rw [QString_indexOfStr, if_pos]
    rw [← h]
    exact List.prefix_append _ _

theorem QString_indexOf_of_not_mem (s : List Char) (ch : Char) (from_ : Nat)
    (h : ch ∉ s.drop from_) : QString_indexOf s ch from_ = none := by
  unfold QString_indexOf
  rw [if_neg]
  rw [List.indexOf_of_not_mem h]
  exact lt_irrefl _

theorem QString_indexOf_head (s : List Char) (ch : Char) :
    QString_indexOf (ch :: s) ch 0 = some 0 := by
  unfold QString_indexOf
  simp

theorem noteName_spec (i : Fin 12) :
    ∃ a b, noteNames.getD i.val [] = [a, b] ∧ a ≠ '|' ∧ b ≠ '|' ∧ a ≠ '\n' ∧ b ≠ '\n' ∧
      noteNames.indexOf [a, b] = i.val := by
  fin_cases i <;> exact ⟨_, _, rfl, by decide, by decide, by decide, by decide, by decide⟩

/-- The first column of a line without `|` is missing. -/
theorem barOffset_of_not_mem (line : List Char) (channels : Nat) (h : '|' ∉ line) :
    barOffset line channels = none := by
  have h0 : QString_indexOf line '|' 0 = none :=
    QString_indexOf_of_not_mem line '|' 0 (by simpa using h)
  unfold barOffset
  cases channels with
  | zero => exact h0
  | succ more => rw [barLoop, h0]

/-- A line that starts with its only `|` has the first column at 0 and no second one. -/
theorem barOffset_of_head (tail : List Char) (h : '|' ∉ tail) :
    barOffset ('|' :: tail) 0 = some 0 ∧ barOffset ('|' :: tail) 1 = none := by
  have h0 := QString_indexOf_head tail '|'
  refine ⟨h0, ?_⟩
  unfold barOffset
  rw [barLoop, h0]
  simp only [barLoop]
  exact QString_indexOf_of_not_mem _ '|' 1 (by simpa using h)

theorem cellNote_of_note (a b : Char) (i : Fin 12) (k : Fin 10) (rest : List Char)
    (hidx : noteNames.indexOf [a, b] = i.val) :
    cellNote ('|' :: a :: b :: Char.ofNat (48 + k.val) :: rest) 0 (Char.ofNat (48 + k.val)) =
      ((i.val + 12 * k.val : Nat) : Int) := by
  have hk := k.isLt
  have hi := i.isLt
  have hs := digitChar_spec k.val hk
  unfold cellNote
  simp only [hs.2.2.2.2.2.2.2, List.drop_succ_cons, List.drop_zero, List.take_succ_cons,
    List.take_zero, hidx]
  rw [if_pos (by omega), if_pos hi]
  push_cast
  omega

theorem cellNote_of_dot (line : List Char) (offset : Nat) : cellNote line offset '.' = 0 := by
  unfold cellNote
  have : QChar_toLatin1 '.' = 46 := by decide
  simp [this]

/-- What the first pass does with a line of a grid. -/
theorem pasteLine_grid_first (g : GridLine) (hbar : '|' ∉ g.rest)
    (hC0 : g.cell ≠ some (some (0, 0))) (st : Int × List Char) :
    pasteLine 0 st g.text = some
      (match g.cell with
        | none => st
        | some none => (normPrev st.1, st.2)
        | some (some (i, k)) =>
          (((i.val + 12 * k.val : Nat) : Int),
            if normPrev st.1 ≠ 0 then
              st.2 ++ (QString_number (((i.val + 12 * k.val : Nat) : Int) - normPrev st.1) ++ [' '])
            else st.2)) := by
  cases hc : g.cell with
  | none =>
    have ht : g.text = g.rest := by simp [GridLine.text, hc]
    rw [ht, pasteLine_of_no_bar 0 st g.rest (barOffset_of_not_mem _ 0 hbar)]
  | some c =>
    cases c with
    | none =>
      have ht : g.text = '|' :: '.' :: '.' :: '.' :: g.rest := by simp [GridLine.text, hc]
      have hb := (barOffset_of_head ('.' :: '.' :: '.' :: g.rest) (by simp [hbar])).1
      rw [ht]
      unfold pasteLine
      rw [hb]
      simp [cellNote_of_dot, normPrev]
    | some ik =>
      obtain ⟨i, k⟩ := ik
      obtain ⟨a, b, hname, ha, hb', _, _, hidx⟩ := noteName_spec i
      have hs := digitChar_spec k.val k.isLt
      have ht : g.text = '|' :: a :: b :: Char.ofNat (48 + k.val) :: g.rest := by
        simp only [GridLine.text, hc]
        rw [hname]
        rfl
      have hb := (barOffset_of_head (a :: b :: Char.ofNat (48 + k.val) :: g.rest)
        (by
          simp only [List.mem_cons, not_or]
          exact ⟨fun h => ha h.symm, fun h => hb' h.symm, fun h => hs.2.2.2.2.1 h.symm,
            hbar⟩)).1
      have hne : ((i.val + 12 * k.val : Nat) : Int) ≠ 0 := by
        have : ¬ (i = 0 ∧ k = 0) := by
          rintro ⟨rfl, rfl⟩
          exact hC0 hc
        have h2 : i.val ≠ 0 ∨ k.val ≠ 0 := by
          by_contra hcon
          simp only [not_or, not_not] at hcon
          exact this ⟨Fin.ext hcon.1, Fin.ext hcon.2⟩
        omega
      rw [ht]
      unfold pasteLine
      rw [hb]
      simp only [Nat.zero_add, List.get?_cons_succ, List.get?_cons_zero,
        cellNote_of_note a b i k g.rest hidx]
      rw [if_pos hne]
      rfl

/-- The second pass finds no column in a line of a grid. -/
theorem pasteLine_grid_second (g : GridLine) (hbar : '|' ∉ g.rest) (st : Int × List Char) :
    pasteLine 1 st g.text = some st := by
  apply pasteLine_of_no_bar
  cases hc : g.cell with
  | none =>
    have ht : g.text = g.rest := by simp [GridLine.text, hc]
    rw [ht]
    exact barOffset_of_not_mem _ 1 hbar
  | some c =>
    cases c with
    | none =>
      have ht : g.text = '|' :: '.' :: '.' :: '.' :: g.rest := by simp [GridLine.text, hc]
      rw [ht]
      exact (barOffset_of_head _ (by simp [hbar])).2
    | some ik =>
      obtain ⟨i, k⟩ := ik
      obtain ⟨a, b, hname, ha, hb', _, _, _⟩ := noteName_spec i
      have hs := digitChar_spec k.val k.isLt
      have ht : g.text = '|' :: a :: b :: Char.ofNat (48 + k.val) :: g.rest := by
        simp only [GridLine.text, hc]
        rw [hname]
        rfl
      rw [ht]
      refine (barOffset_of_head _ ?_).2
      simp only [List.mem_cons, not_or]
      exact ⟨fun h => ha h.symm, fun h => hb' h.symm, fun h => hs.2.2.2.2.1 h.symm, hbar⟩

theorem normPrev_natCast (n : Nat) : normPrev (n : Int) = (n : Int) := by
  unfold normPrev
  rw [if_neg]
  omega

theorem normPrev_idem (p : Int) : normPrev (normPrev p) = normPrev p := by
  unfold normPrev
  by_cases h : p = -1 <;> simp [h]

/-- The first pass over a grid: the text appended and the sign of the final `prevNote`. -/
theorem pastePass_grid_first (grid : List GridLine) (hbar : ∀ g ∈ grid, '|' ∉ g.rest)
    (hC0 : ∀ g ∈ grid, g.cell ≠ some (some (0, 0))) (st : Int × List Char) :
    ∃ p', pastePass (grid.map GridLine.text) 0 st =
        some (p', st.2 ++ diffsText (normPrev st.1) (gridNotes grid)) ∧
      ((0 < st.1 ∨ gridNotes grid ≠ []) → 0 < p') := by
  induction grid generalizing st with
  | nil =>
    exact ⟨st.1, by simp [pastePass_nil, gridNotes, diffsText], fun h => by
      rcases h with h | h
      · exact h
      · exact absurd rfl h⟩
  | cons g gs ih =>
    have hbar' : ∀ g ∈ gs, '|' ∉ g.rest := fun x hx => hbar x (List.mem_cons_of_mem _ hx)
    have hC0' : ∀ g ∈ gs, g.cell ≠ some (some (0, 0)) :=
      fun x hx => hC0 x (List.mem_cons_of_mem _ hx)
    rw [List.map_cons, pastePass_cons,
      pasteLine_grid_first g (hbar g (List.mem_cons_self _ _)) (hC0 g (List.mem_cons_self _ _))]
    simp only [Option.some_bind]
    cases hc : g.cell with
    | none =>
      have hn : gridNotes (g :: gs) = gridNotes gs := by simp [gridNotes, hc]
      obtain ⟨p', h1, h2⟩ := ih hbar' hC0' st
      exact ⟨p', by rw [hn]; exact h1, by rw [hn]; exact h2⟩
    | some c =>
      cases c with
      | none =>
        have hn : gridNotes (g :: gs) = gridNotes gs := by simp [gridNotes, hc]
        obtain ⟨p', h1, h2⟩ := ih hbar' hC0' (normPrev st.1, st.2)
        refine ⟨p', ?_, ?_⟩
        · rw [hn]
          simpa [normPrev_idem] using h1
        · rw [hn]
          intro h
          apply h2
          rcases h with h | h
          · left
            show 0 < normPrev st.1
            unfold normPrev
            rw [if_neg (by omega)]
            exact h
          · exact Or.inr h
      | some ik =>
        obtain ⟨i, k⟩ := ik
        have hn : gridNotes (g :: gs) = (i.val + 12 * k.val) :: gridNotes gs := by
          simp [gridNotes, hc]
        have hpos : (0 : Int) < ((i.val + 12 * k.val : Nat) : Int) := by
          have : ¬ (i = 0 ∧ k = 0) := by
            rintro ⟨rfl, rfl⟩
            exact hC0 g (List.mem_cons_self _ _) hc
          have h2 : i.val ≠ 0 ∨ k.val ≠ 0 := by
            by_contra hcon
            simp only [not_or, not_not] at hcon
            exact this ⟨Fin.ext hcon.1, Fin.ext hcon.2⟩
          omega
        obtain ⟨p', h1, h2⟩ := ih hbar' hC0'
          (((i.val + 12 * k.val : Nat) : Int),
            if normPrev st.1 ≠ 0 then
              st.2 ++ (QString_number (((i.val + 12 * k.val : Nat) : Int) - normPrev st.1) ++ [' '])
            else st.2)
        refine ⟨p', ?_, fun _ => h2 (Or.inl hpos)⟩
        rw [hn]
        simp only [] at h1 ⊢
        rw [h1, normPrev_natCast]
        congr 2
        by_cases hp : normPrev st.1 ≠ 0
        · simp [diffsText, hp]
        · simp [diffsText, hp]

theorem pastePass_grid_second (grid : List GridLine) (hbar : ∀ g ∈ grid, '|' ∉ g.rest)
    (st : Int × List Char) : pastePass (grid.map GridLine.text) 1 st = some st := by
  induction grid with
  | nil => rfl
  | cons g gs ih =>
    rw [List.map_cons, pastePass_cons,
      pasteLine_grid_second g (hbar g (List.mem_cons_self _ _))]
    exact ih fun x hx => hbar x (List.mem_cons_of_mem _ hx)

theorem newline_not_mem_text (g : GridLine) (h : '\n' ∉ g.rest) : '\n' ∉ g.text := by
  cases hc : g.cell with
  | none => simpa [GridLine.text, hc] using h
  | some c =>
    cases c with
    | none =>
      simp only [GridLine.text, hc, List.mem_cons, not_or]
      exact ⟨by decide, by decide, by decide, by decide, h⟩
    | some ik =>
      obtain ⟨i, k⟩ := ik
      obtain ⟨a, b, hname, _, _, ha, hb, _⟩ := noteName_spec i
      have hs := digitChar_spec k.val k.isLt
      simp only [GridLine.text, hc]
      rw [hname]
      simp only [List.cons_append, List.nil_append, List.mem_cons, not_or]
      exact ⟨by decide, fun h' => ha h'.symm, fun h' => hb h'.symm,
        fun h' => hs.2.2.2.2.2.1 h'.symm, h⟩

theorem pasteLines_pasteText (grid : List GridLine) (hne : grid ≠ [])
    (hnl : ∀ g ∈ grid, '\n' ∉ g.rest) :
    pasteLines (pasteText grid) = some (grid.map GridLine.text) := by
  unfold pasteLines pasteText
  rw [QString_indexOfStr_append]
  simp only [Nat.zero_add]
  have hlen : "ModPlug Tracker ".toList.length = 16 := by decide
  rw [List.drop_left' hlen]
  unfold QString_split
  rw [List.splitOn_intercalate _ '\n']
  · intro l hl
    obtain ⟨g, hg, rfl⟩ := List.mem_map.1 hl
    exact newline_not_mem_text g (hnl g hg)
  · simpa using hne

/-- What `OnPasteMPT` writes for a grid with at least one recognised note. -/
theorem OnPasteMPT_grid (grid : List GridLine) (n0 : Nat) (ns : List Nat)
    (hrest : ∀ g ∈ grid, '|' ∉ g.rest ∧ '\n' ∉ g.rest)
    (hC0 : ∀ g ∈ grid, g.cell ≠ some (some (0, 0))) (hnotes : gridNotes grid = n0 :: ns) :
    OnPasteMPT (pasteText grid) = .setText (diffsText 0 (gridNotes grid) ++ ['|', '|']) := by
  have hbar : ∀ g ∈ grid, '|' ∉ g.rest := fun g hg => (hrest g hg).1
  have hne : grid ≠ [] := by
    intro h
    rw [h] at hnotes
    simp [gridNotes] at hnotes
  obtain ⟨p', hp1, hp2⟩ := pastePass_grid_first grid hbar hC0 (-1, [])
  have hpos : 0 < p' := hp2 (Or.inr (by rw [hnotes]; simp))
  have hsum : 1 ≤ ((grid.map GridLine.text).map List.length).sum := by
    by_contra hcon
    have h0 : ((grid.map GridLine.text).map List.length).sum = 0 := by omega
    have hall : ∀ line ∈ grid.map GridLine.text, barOffset line 0 = none := by
      intro line hl
      have := length_le_sum_of_mem _ line hl
      have hlen : line.length = 0 := by omega
      have : line = [] := List.length_eq_zero.1 hlen
      rw [this]
      exact barOffset_of_not_mem [] 0 (by simp)
    have := (pastePass_eq_neg_one_iff _ 0 (-1, []) _ rfl hp1).2 hall
    simp only [] at this
    omega
  unfold OnPasteMPT
  rw [pasteLines_pasteText grid hne fun g hg => (hrest g hg).2]
  simp only []
  obtain ⟨f, hf⟩ : ∃ f, ((grid.map GridLine.text).map List.length).sum + 1 = f + 2 :=
    ⟨((grid.map GridLine.text).map List.length).sum - 1, by omega⟩
  rw [hf]
  rw [pasteLoop, hp1]
  simp only [normPrev, if_true, List.nil_append]
  rw [if_pos (by omega), if_pos (by omega)]
  rw [pasteLoop, pastePass_grid_second grid hbar]
  simp

/-! ## Compiling the pasted melody -/

theorem diffsText_eq (a : Nat) (ns : List Nat) (ha : a ≠ 0) (hns : ∀ n ∈ ns, n ≠ 0) :
    diffsText (a : Int) ns =
      (noteDiffs (a :: ns)).flatMap fun d => QString_number d ++ [' '] := by
  induction ns generalizing a with
  | nil => simp [diffsText, noteDiffs]
  | cons b bs ih =>
    have hb : b ≠ 0 := hns b (List.mem_cons_self _ _)
    have ha' : (a : Int) ≠ 0 := by omega
    simp only [diffsText, noteDiffs, List.flatMap_cons, if_pos ha']
    rw [ih b hb fun n hn => hns n (List.mem_cons_of_mem _ hn)]

theorem words_flatMap_number (ds : List Int) :
    words (ds.flatMap fun d => QString_number d ++ [' ']) = ds.map QString_number := by
  induction ds with
  | nil => decide
  | cons d ds ih =>
    unfold words at ih ⊢
    simp only [List.flatMap_cons, List.append_assoc, List.singleton_append, List.map_cons]
    rw [List.splitOnP_first QChar_isSpace (QString_number d)
      (fun c hc => by simp [QString_number_no_space d c hc]) ' ' (by decide)]
    have hne := QString_number_ne_nil d
    rw [List.filter_cons, if_pos (by simpa [List.isEmpty_iff] using hne), ih]

theorem bar_not_mem_flatMap_number (ds : List Int) :
    '|' ∉ ds.flatMap fun d => QString_number d ++ [' '] := by
  intro h
  obtain ⟨d, _, hd⟩ := List.mem_flatMap.1 h
  rcases List.mem_append.1 hd with h1 | h1
  · exact QString_number_no_bar d h1
  · simp at h1

theorem gridNotes_le (grid : List GridLine) : ∀ n ∈ gridNotes grid, n ≤ 119 := by
  intro n hn
  unfold gridNotes at hn
  obtain ⟨g, _, hg⟩ := List.mem_filterMap.1 hn
  cases hc : g.cell with
  | none => rw [hc] at hg; simp at hg
  | some c =>
    cases c with
    | none => rw [hc] at hg; simp at hg
    | some ik =>
      obtain ⟨i, k⟩ := ik
      rw [hc] at hg
      simp only [Option.some.injEq] at hg
      have := i.isLt
      have := k.isLt
      omega

theorem gridNotes_ne_zero (grid : List GridLine)
    (hC0 : ∀ g ∈ grid, g.cell ≠ some (some (0, 0))) : ∀ n ∈ gridNotes grid, n ≠ 0 := by
  intro n hn hz
  unfold gridNotes at hn
  obtain ⟨g, hgm, hg⟩ := List.mem_filterMap.1 hn
  cases hc : g.cell with
  | none => rw [hc] at hg; simp at hg
  | some c =>
    cases c with
    | none => rw [hc] at hg; simp at hg
    | some ik =>
      obtain ⟨i, k⟩ := ik
      rw [hc] at hg
      simp only [Option.some.injEq] at hg
      apply hC0 g hgm
      rw [hc]
      have hi : i = 0 := Fin.ext (by simp; omega)
      have hk : k = 0 := Fin.ext (by simp; omega)
      rw [hi, hk]

theorem noteDiffs_range (ns : List Nat) (h : ∀ n ∈ ns, n ≤ 119) :
    ∀ d ∈ noteDiffs ns, -2147483648 ≤ d ∧ d ≤ 2147483647 := by
  induction ns with
  | nil => simp [noteDiffs]
  | cons a as ih =>
    cases as with
    | nil => simp [noteDiffs]
    | cons b bs =>
      intro d hd
      simp only [noteDiffs, List.mem_cons] at hd
      have ha := h a (List.mem_cons_self _ _)
      have hb := h b (List.mem_cons_of_mem _ (List.mem_cons_self _ _))
      rcases hd with rfl | hd
      · omega
      · exact ih (fun n hn => h n (List.mem_cons_of_mem _ hn)) d hd

/-- The needles compiled from the text `OnPasteMPT` writes for one column. -/
theorem DoSearch_melody_pasted (ds : List Int) (hne : ds ≠ [])
    (hrange : ∀ d ∈ ds, -2147483648 ≤ d ∧ d ≤ 2147483647) :
    (DoSearch_melody ((ds.flatMap fun d => QString_number d ++ [' ']) ++ ['|', '|'])).melodyBytes =
      [ds.map fun d => (d % 256).toNat] := by
  have hw := words_flatMap_number ds
  have hwne : words (ds.flatMap fun d => QString_number d ++ [' ']) ≠ [] := by
    rw [hw]
    simpa using hne
  have hsplit : QString_split '|' ((ds.flatMap fun d => QString_number d ++ [' ']) ++ ['|', '|']) =
      [ds.flatMap fun d => QString_number d ++ [' '], [], []] := by
    unfold QString_split List.splitOn
    rw [List.splitOnP_first (· == '|') (ds.flatMap fun d => QString_number d ++ [' '])
      (fun c hc hcb => bar_not_mem_flatMap_number ds (by
        have : c = '|' := by simpa using hcb
        exact this ▸ hc)) '|' (by simp)]
    congr 1
  have hs : QString_simplified (ds.flatMap fun d => QString_number d ++ [' ']) ≠ [] :=
    fun h0 => hwne ((QString_simplified_eq_nil_iff _).1 h0)
  have he : QString_simplified [] = [] := by decide
  rw [DoSearch_melody_bytes, hsplit]
  simp only [List.filter_cons, hs, he, decide_False, decide_True, Bool.not_false, Bool.not_true,
    if_true, List.filter_nil, List.map_cons, List.map_nil]
  rw [phraseBytes_eq _ hwne, hw]
  rw [map_toInt_of_decimalValue (ds.map QString_number) ds (by
    rw [List.map_map]
    apply List.map_congr_left
    intro d _
    exact decimalValue_number d) hrange]
  simp

/-! ## The claims on pasting, on the fingerprint and on reachable tables -/

/-- C11 as stated fails: in the text below the first column holds no note, so the pass for
column 0 recognises none, and the melody still holds the interval of column 1. -/
theorem paste_goes_on_after_empty_column :
    ¬ ∀ (data : List Char) (lines : List (List Char)) (melody : List Char) (c : Nat),
      pasteLines data = some lines → OnPasteMPT data = .setText melody →
      (∃ p t, pastePass lines c (-1, []) = some (p, t) ∧ p ≤ 0) →
      (∀ c', c' < c → ∃ p t, pastePass lines c' (-1, []) = some (p, t) ∧ 0 < p) →
      melody = (List.range (c + 1)).flatMap (passText lines) := by
  intro h
  have := h "ModPlug Tracker \n|...|C-5\n|...|D-5".toList
    ["".toList, "|...|C-5".toList, "|...|D-5".toList] "2 ||".toList 0
    (by decide) (by decide) ⟨0, [], by decide, by decide⟩ (fun c' hc' => by omega)
  revert this
  decide

/-- C11, amended: when `OnPasteMPT` writes a melody, it is the text of the passes for the
columns 0, 1, ..., n in this order, where n is the first column that no line has; every
column before n is present in some line, whether or not its pass recognised a note, and no
pass is run for a column behind n. -/
theorem paste_stops_at_first_missing_column (data melody : List Char)
    (h : OnPasteMPT data = .setText melody) :
    ∃ lines n, pasteLines data = some lines ∧
      (∀ line ∈ lines, barOffset line n = none) ∧
      (∀ c, c < n → ∃ line ∈ lines, (barOffset line c).isSome = true) ∧
      melody = (List.range (n + 1)).flatMap (passText lines) := by
  unfold OnPasteMPT at h
  cases hl : pasteLines data with
  | none => rw [hl] at h; simp at h
  | some lines =>
    rw [hl] at h
    simp only [] at h
    obtain ⟨n, _, hnone, hsome, hm⟩ := pasteLoop_setText lines _ 0 [] melody h
    refine ⟨lines, n, rfl, hnone, fun c hc => hsome c (Nat.zero_le _) hc, ?_⟩
    rw [hm, List.nil_append, Nat.sub_zero, List.range_eq_range']

/-- C11, amended, at a text whose first column is empty: both columns are decoded. -/
theorem paste_stops_at_first_missing_column_witness :
    ∃ lines n, pasteLines "ModPlug Tracker \n|...|C-5\n|...|D-5".toList = some lines ∧
      (∀ line ∈ lines, barOffset line n = none) ∧
      (∀ c, c < n → ∃ line ∈ lines, (barOffset line c).isSome = true) ∧
      "2 ||".toList = (List.range (n + 1)).flatMap (passText lines) :=
  paste_stops_at_first_missing_column "ModPlug Tracker \n|...|C-5\n|...|D-5".toList
    "2 ||".toList (by decide)

/-- C12 as stated fails at two grids.  For the single note `D-0` the melody `||` compiles to
no phrase at all.  For `D-0`, `C-0`, `E-0` the cell `C-0` gets the value 0 and is passed
over: the melody compiles to the needle 2, while the module with the notes 3, 1, 5 has the
note data 0, 3, 254, 4, which does not contain it. -/
theorem pasted_grid_one_note_and_low_c :
    (OnPasteMPT (pasteText oneNoteGrid) = .setText ['|', '|'] ∧
        (DoSearch_melody ['|', '|']).melodyBytes = [] ∧
        (DoSearch_melody ['|', '|']).melodyBytes ≠ [intervals (gridNotes oneNoteGrid)]) ∧
      (OnPasteMPT (pasteText lowGrid) = .setText ['2', ' ', '|', '|'] ∧
        (DoSearch_melody ['2', ' ', '|', '|']).melodyBytes = [[2]] ∧
        intervals (gridNotes lowGrid) = [254, 4] ∧
        validNotes (gridModule lowGrid) 0 0 = [3, 1, 5] ∧
        BuildNoteString (gridModule lowGrid) [] = [0, 3, 254, 4] ∧
        melodyFilter (DoSearch_melody ['2', ' ', '|', '|'])
          (BuildNoteString (gridModule lowGrid) []) = false) := by
  decide

/-- C12, amended: for a single-channel grid with at least two note cells, none of them
`C-0` (the lines hold no further `|` and no line feed), `OnPasteMPT` writes the differences of
consecutive notes, each followed by a space, and `||`; the typed-form compiler turns this
text into exactly one needle, the differences modulo 256; the module whose channel holds the
same cells (note `i`, octave `k` as `12 k + i + 1`) has as note data the synchronisation
byte, the first note and then this needle, so the needle occurs in it and the melody filter
accepts it. -/
theorem pasted_grid_matches_encoder (grid : List GridLine) (n0 n1 : Nat) (ns : List Nat)
    (hrest : ∀ g ∈ grid, '|' ∉ g.rest ∧ '\n' ∉ g.rest)
    (hC0 : ∀ g ∈ grid, g.cell ≠ some (some (0, 0)))
    (hnotes : gridNotes grid = n0 :: n1 :: ns) :
    ∃ melody,
      melody = ((noteDiffs (gridNotes grid)).flatMap fun d => QString_number d ++ [' ']) ++
        ['|', '|'] ∧
      OnPasteMPT (pasteText grid) = .setText melody ∧
      (DoSearch_melody melody).melodyBytes = [intervals (gridNotes grid)] ∧
      validNotes (gridModule grid) 0 0 = (gridNotes grid).map (fun n => n + 1) ∧
      BuildNoteString (gridModule grid) [] = 0 :: (n0 + 1) :: intervals (gridNotes grid) ∧
      intervals (gridNotes grid) <:+: BuildNoteString (gridModule grid) [] ∧
      melodyFilter (DoSearch_melody melody) (BuildNoteString (gridModule grid) []) = true := by
  have hle := gridNotes_le grid
  have hnz := gridNotes_ne_zero grid hC0
  have hpaste := OnPasteMPT_grid grid n0 (n1 :: ns) hrest hC0 hnotes
  have htext : diffsText 0 (gridNotes grid) =
      (noteDiffs (gridNotes grid)).flatMap fun d => QString_number d ++ [' '] := by
    rw [hnotes] at hnz ⊢
    have h0 : diffsText 0 (n0 :: n1 :: ns) = diffsText (n0 : Int) (n1 :: ns) := by
      simp [diffsText]
    rw [h0]
    exact diffsText_eq n0 (n1 :: ns) (hnz n0 (List.mem_cons_self _ _))
      fun n hn => hnz n (List.mem_cons_of_mem _ hn)
  have hdne : noteDiffs (gridNotes grid) ≠ [] := by
    rw [hnotes]
    simp [noteDiffs]
  have hbytes := DoSearch_melody_pasted (noteDiffs (gridNotes grid)) hdne
    (noteDiffs_range _ hle)
  rw [← intervals_eq_map_noteDiffs] at hbytes
  have hbuild : BuildNoteString (gridModule grid) [] =
      0 :: (n0 + 1) :: intervals (gridNotes grid) := by
    rw [BuildNoteString_gridModule grid n0 (n1 :: ns) hnotes]
    have h0 : n0 ≤ 119 := hle n0 (by rw [hnotes]; exact List.mem_cons_self _ _)
    have : toByte (toInt8 ((n0 + 1 : Nat) : Int)) = n0 + 1 := by
      unfold toByte toInt8
      omega
    rw [this]
  have hinfix : intervals (gridNotes grid) <:+: BuildNoteString (gridModule grid) [] := by
    rw [hbuild]
    exact ⟨[0, n0 + 1], [], by simp⟩
  refine ⟨_, rfl, ?_, hbytes, validNotes_gridModule grid, hbuild, hinfix, ?_⟩
  · rw [hpaste, htext]
  · rw [melodyFilter_eq_true_iff _ _ (DoSearch_melody_clauses _), hbytes]
    intro needle hn
    rw [List.mem_singleton] at hn
    rw [hn]
    exact hinfix

/-- C12, amended, at a grid as OpenMPT copies it: `C-5`, an empty cell, `D-5`, `D-5`. -/
theorem pasted_grid_matches_encoder_witness :
    ∃ melody,
      melody = ((noteDiffs (gridNotes sampleGrid)).flatMap fun d => QString_number d ++ [' ']) ++
        ['|', '|'] ∧
      OnPasteMPT (pasteText sampleGrid) = .setText melody ∧
      (DoSearch_melody melody).melodyBytes = [intervals (gridNotes sampleGrid)] ∧
      validNotes (gridModule sampleGrid) 0 0 = (gridNotes sampleGrid).map (fun n => n + 1) ∧
      BuildNoteString (gridModule sampleGrid) [] =
        0 :: (60 + 1) :: intervals (gridNotes sampleGrid) ∧
      intervals (gridNotes sampleGrid) <:+: BuildNoteString (gridModule sampleGrid) [] ∧
      melodyFilter (DoSearch_melody melody) (BuildNoteString (gridModule sampleGrid) []) = true :=
  pasted_grid_matches_encoder sampleGrid 60 62 [62] (by decide) (by decide) (by decide)

/-- C13: when the decoder yields the empty vector for the trimmed fingerprint text (and for
an empty field), `DoSearch` hands on the same query text, the same bound values, the same
(empty) vector and no sort as for the same form with an empty fingerprint field; in general
the query text is the projection, then the fingerprint column exactly when the decoded vector
is not empty, then the rest, which does not depend on the fingerprint, and the descending
sort on column 3 is requested exactly when the decoded vector is not empty. -/
theorem empty_fingerprint_same_search (decode : List Char → List Nat) (ui : SearchForm)
    (showAll : Bool) (habsent : decode (QString_trimmed []) = [])
    (hempty : decode (QString_trimmed ui.fingerprint) = []) :
    DoSearch decode ui showAll = DoSearch decode { ui with fingerprint := [] } showAll ∧
      (DoSearch decode ui showAll).sortByColumn = none ∧
      (DoSearch decode ui showAll).rawFingerprint = [] ∧
      (∀ ui2 : SearchForm,
        (DoSearch decode ui2 showAll).queryStr =
          "SELECT `filename`, `title`, `filesize`, `filedate` " ++
            ((if decode (QString_trimmed ui2.fingerprint) ≠ [] then ", `fingerprint` " else "") ++
              ("FROM `modlib_modules` " ++
                if showAll then ""
                else DoSearch_where ui2 (DoSearch_melody ui2.melody).clauses ""))) ∧
      (∀ ui2 : SearchForm,
        (DoSearch decode ui2 showAll).sortByColumn = some 3 ↔
          decode (QString_trimmed ui2.fingerprint) ≠ []) := by
  refine ⟨?_, ?_, ?_, ?_, ?_⟩
  · simp only [DoSearch, hempty, habsent]
    rfl
  · simp [DoSearch, hempty]
  · simp [DoSearch, hempty]
  · intro ui2
    by_cases hd : decode (QString_trimmed ui2.fingerprint) = []
    · cases showAll
      · simp only [DoSearch, hd, appendIf, List.length_nil, ne_eq, not_true_eq_false,
          decide_False, Bool.false_eq_true, if_false, Bool.not_false, if_true]
        rw [DoSearch_where_eq]
        simp only [String.append_assoc, String.empty_append]
      · simp only [DoSearch, hd, appendIf, List.length_nil, ne_eq, not_true_eq_false,
          decide_False, Bool.false_eq_true, if_false, Bool.not_true, if_true,
          String.append_empty, String.empty_append]
    · have hlen : (decode (QString_trimmed ui2.fingerprint)).length ≠ 0 := by
        simpa [List.length_eq_zero] using hd
      cases showAll
      · simp only [DoSearch, hd, hlen, appendIf, ne_eq, not_false_eq_true, decide_True,
          if_true, Bool.not_false, Bool.false_eq_true, if_false]
        rw [DoSearch_where_eq]
        simp only [String.append_assoc]
      · simp only [DoSearch, hd, hlen, appendIf, ne_eq, not_false_eq_true, decide_True,
          if_true, Bool.not_true, Bool.false_eq_true, if_false, String.append_assoc,
          String.append_empty]
  · intro ui2
    by_cases hd : decode (QString_trimmed ui2.fingerprint) = []
    · simp [DoSearch, hd]
    · have hlen : (decode (QString_trimmed ui2.fingerprint)).length ≠ 0 := by
        simpa [List.length_eq_zero] using hd
      simp [DoSearch, hd, hlen]

/-- C13 at a form whose fingerprint field holds a text the decoder rejects. -/
theorem empty_fingerprint_same_search_witness :
    sampleDecoder (QString_trimmed ['z', '!']) = [] ∧
      DoSearch sampleDecoder (sampleForm ['z', '!']) false =
        DoSearch sampleDecoder { sampleForm ['z', '!'] with fingerprint := [] } false ∧
      (DoSearch sampleDecoder (sampleForm ['z', '!']) false).sortByColumn = none :=
  ⟨by decide,
    (empty_fingerprint_same_search sampleDecoder (sampleForm ['z', '!']) false (by decide)
      (by decide)).1,
    (empty_fingerprint_same_search sampleDecoder (sampleForm ['z', '!']) false (by decide)
      (by decide)).2.1⟩

/-- C14: in a table reached from the empty one by calls of `AddModule`, `UpdateModule`,
`UpdateComments` and `RemoveModule`, no two rows share a digest, no two share a file name, and
the duplicate query returns no row. -/
theorem reachable_no_duplicates (db : List Row) (h : Reachable db) :
    (db.map fun x => x.hash).Nodup ∧ (db.map fun x => x.filename).Nodup ∧ OnFindDupes db = [] :=
  ⟨(Distinct_of_Reachable db h).1, (Distinct_of_Reachable db h).2,
    OnFindDupes_eq_nil db (Distinct_of_Reachable db h).1⟩

/-- C14 at the table reached by adding `a.mod`, adding its copy `b.mod`, commenting and
removing a file that was never added. -/
theorem reachable_no_duplicates_witness :
    ((RemoveModule sampleWorld (UpdateComments
        (AddModule sampleWorld (AddModule sampleWorld [] "a.mod").2 "b.mod").2 "a.mod" "good")
        "c.txt").map fun x => x.hash).Nodup ∧
      ((RemoveModule sampleWorld (UpdateComments
        (AddModule sampleWorld (AddModule sampleWorld [] "a.mod").2 "b.mod").2 "a.mod" "good")
        "c.txt").map fun x => x.filename).Nodup ∧
      OnFindDupes (RemoveModule sampleWorld (UpdateComments
        (AddModule sampleWorld (AddModule sampleWorld [] "a.mod").2 "b.mod").2 "a.mod" "good")
        "c.txt") = [] :=
  reachable_no_duplicates _
    (Reachable.removeModule sampleWorld _ "c.txt"
      (Reachable.updateComments _ "a.mod" "good"
        (Reachable.addModule sampleWorld _ "b.mod"
          (Reachable.addModule sampleWorld [] "a.mod" Reachable.empty))))

/-- C15, evaluated on the code: the clipboard text is the marker followed by a single `|`.
The pass for column 0 finds the `|` at position 0 of the line `|`, which has one character,
and `line->at(offset + 3)` asks for position 3. -/
theorem paste_short_line_out_of_range :
    pasteLines "ModPlug Tracker |".toList = some [['|']] ∧
      barOffset ['|'] 0 = some 0 ∧ ['|'].get? (0 + 3) = none ∧
      OnPasteMPT "ModPlug Tracker |".toList = .outOfRange := by
  decide

end ModLibrary
